import Mathlib

/-!
Verification of the natural-language specification of `miscutils` against its
source, centred on `miscutils/serializer.py`: the `Serializer` facade, the
`UnpickleableItemHelper` graph-repair walker, and the `Lost` / `LostObject`
placeholders.

The embedding models the Python object graph as a heap: a function from
object identities (`Nat`, standing for CPython `id()` values) to `Node`s.
Each Python method of the serializer module is translated into a Lean
function over an explicit state (heap, allocation counter, the walker's
`seen` dictionary and `seen_while_filling` set).  Recursion over the
possibly-cyclic heap is driven by an explicit fuel parameter; running out of
fuel surfaces as the distinguished error `PErr.fuelErr`, which the theorems
below never rely on.  `dill.dumps` is modelled structurally: encoding an
object fails with the error of the first reachable unserializable node, in
depth-first preorder, with the memoisation on identities that real pickling
performs (so cyclic but otherwise serializable graphs encode fine).
-/

namespace Miscutils

/-- Python exception kinds that the serializer module raises, catches or
propagates: `TypeError`, `pickle.PicklingError`, `RuntimeError` (dictionary
changed size during iteration), `EOFError`, `FileNotFoundError`, `KeyError`,
`AttributeError`, plus the model-internal fuel-exhaustion marker. -/
inductive PErr where
  | typeErr
  | picklingErr
  | runtimeErr
  | eofErr
  | fileNotFound
  | keyErr
  | attributeErr
  | fuelErr
deriving DecidableEq

/-- A node of the Python object heap.  `atom` is an opaque leaf object with
no instance `__dict__` and no iteration protocol (for example a socket or an
open OS handle): `pickle` records whether `dill.dumps` succeeds on it and,
if not, which exception it raises; `copyable` records whether `copy.copy`
succeeds on it; `reprS` is its `repr`.  `ns` is an ordinary object with an
instance `__dict__` (`attrs`, an ordered attribute dictionary mapping names
to value identities), its own direct-pickling behaviour `ownPickle` (a class
can be unserializable independently of its attribute values), a `copyable`
flag, and flags recording whether its type overrides `__setattr__` and
whether it defines `__iter__`.  `pylist` and `pydict` are the built-in
containers the walker meets (`pydict` entries are key-identity and
value-identity pairs in insertion order).  `lost` is a `LostObject`
placeholder carrying the captured `repr` string, `future` a `FutureObject`
carrying the original identity it stands for. -/
inductive Node where
  | atom (pickle : Option PErr) (copyable : Bool) (reprS : String)
  | intObj (n : Nat)
  | strObj (s : String)
  | pynone
  | ns (attrs : List (String × Nat)) (ownPickle : Option PErr) (copyable : Bool)
       (customSetattr : Bool) (iterable : Bool)
  | pylist (elems : List Nat) (ownPickle : Option PErr)
  | pydict (entries : List (Nat × Nat))
  | lost (reprS : String)
  | future (target : Nat)
deriving DecidableEq

/-- `hasattr(obj, "__dict__")`: true for ordinary objects, and also for
`LostObject` and `FutureObject` instances (both are plain classes whose
instances carry an instance dictionary: `repr` respectively `id`). -/
def hasDictB : Node → Bool
  | .ns _ _ _ _ _ => true
  | .lost _ => true
  | .future _ => true
  | _ => false

/-- `type(obj).__setattr__ is not object.__setattr__`: only `ns` nodes can
carry a custom `__setattr__` in the model (`LostObject` and `FutureObject`
use the default one). -/
def customSetattrB : Node → Bool
  | .ns _ _ _ c _ => c
  | _ => false

/-- `hasattr(obj, "__iter__")`: built-in containers and strings are
iterable, `LostObject` defines `__iter__`, `FutureObject` does not. -/
def hasIterB : Node → Bool
  | .ns _ _ _ _ it => it
  | .pylist _ _ => true
  | .pydict _ => true
  | .strObj _ => true
  | .lost _ => true
  | _ => false

/-- `isinstance(obj, (str, bytes))`. -/
def isStrBytesB : Node → Bool
  | .strObj _ => true
  | _ => false

/-- `UnpickleableItemHelper.is_endpoint`, translated clause for clause from
the source:
`(not hasattr(item, "__dict__") or type(item).__setattr__ is not
object.__setattr__) and (not hasattr(item, "__iter__") or
isinstance(item, (str, bytes)))`. -/
def is_endpoint (n : Node) : Bool :=
  (!hasDictB n || customSetattrB n) && (!hasIterB n || isStrBytesB n)

/-- The `repr` text captured when an object is replaced by a `LostObject`. -/
def reprOf : Node → String
  | .atom _ _ r => r
  | .intObj n => toString n
  | .strObj s => s
  | .pynone => "None"
  | .ns _ _ _ _ _ => "object"
  | .pylist _ _ => "list"
  | .pydict _ => "dict"
  | .lost r => "LostObject(" ++ r ++ ")"
  | .future t => "FutureObject(" ++ toString t ++ ")"

/-- Heaps map object identities to nodes.  Ids outside the live range are
read through the same function; well-formedness side conditions in the
theorems keep original graphs confined below the allocation counter. -/
def Heap : Type := Nat → Node

/-- Pointwise heap update at one identity. -/
def hset (h : Heap) (i : Nat) (nd : Node) : Heap :=
  fun j => if j = i then nd else h j

/-- Walker state: the heap, the next fresh identity (CPython allocates a
fresh `id` for every new object), the `seen` dictionary of
`UnpickleableItemHelper` (identity to replacement, where the inner `none`
is Python `None` used as the in-progress marker), and the
`seen_while_filling` identity set. -/
structure St where
  heap : Heap
  next : Nat
  seen : List (Nat × Option Nat)
  seenFill : List Nat

/-- Allocate a fresh object, returning its identity. -/
def alloc (st : St) (nd : Node) : Nat × St :=
  (st.next, { st with heap := hset st.heap st.next nd, next := st.next + 1 })

/-- `self.seen[k] = v` on the assoc-list model of the Python dict:
overwrite the entry if the key is present, otherwise prepend it. -/
def seenSet (s : List (Nat × Option Nat)) (k : Nat) (v : Option Nat) :
    List (Nat × Option Nat) :=
  if s.any (fun p => p.1 == k) then
    s.map (fun p => if p.1 == k then (p.1, v) else p)
  else
    (k, v) :: s

/-- State-level `self.seen[k] = v`. -/
def seenSetSt (st : St) (k : Nat) (v : Option Nat) : St :=
  { st with seen := seenSet st.seen k v }

/-- `setattr(obj, key, value)` on an attribute dictionary: replace the
entry whose key matches, or append a new one (Python dicts keep insertion
order and updating an existing key keeps its position). -/
def dictSetStr (attrs : List (String × Nat)) (k : String) (v : Nat) :
    List (String × Nat) :=
  if attrs.any (fun p => p.1 == k) then
    attrs.map (fun p => if p.1 == k then (p.1, v) else p)
  else
    attrs ++ [(k, v)]

/-- The attribute dictionary of a node (`vars(obj)`), empty for nodes
without one.  The `repr` string of a `LostObject` and the `id` of a
`FutureObject` live inline in the node rather than as separate heap
objects, so they do not appear here. -/
def attrsOf : Node → List (String × Nat)
  | .ns a _ _ _ _ => a
  | _ => []

/-- `setattr` at the heap level, on the object at identity `c`. -/
def setAttr (st : St) (c : Nat) (k : String) (v : Nat) : St :=
  match st.heap c with
  | .ns a o cp cs it => { st with heap := hset st.heap c (.ns (dictSetStr a k v) o cp cs it) }
  | _ => st

/-- `obj[i] = v` on a list node. -/
def setElem (st : St) (c : Nat) (i : Nat) (v : Nat) : St :=
  match st.heap c with
  | .pylist es o => { st with heap := hset st.heap c (.pylist (es.set i v) o) }
  | _ => st

/-- The identities a node refers to directly (attribute values, elements,
dict keys and values, the target of a `FutureObject`). -/
def Node.memberIds : Node → List Nat
  | .ns a _ _ _ _ => a.map (fun p => p.2)
  | .pylist es _ => es
  | .pydict es => es.map (fun p => p.1) ++ es.map (fun p => p.2)
  | .future t => [t]
  | _ => []

/-- Is the node a `FutureObject`? -/
def isFutureB : Node → Bool
  | .future _ => true
  | _ => false

/-- Is the node a `LostObject`? -/
def isLostB : Node → Bool
  | .lost _ => true
  | _ => false

/-- Sequential pickling of a list of children, threading the memo table,
stopping at the first failure (as the pickle protocol does). -/
def dumpsList (rec : List Nat → Nat → Except PErr (List Nat)) :
    List Nat → List Nat → Except PErr (List Nat)
  | vis, [] => .ok vis
  | vis, c :: cs =>
    match rec vis c with
    | .error e => .error e
    | .ok vis2 => dumpsList rec vis2 cs

/-- Structural model of `dill.dumps(obj)`: succeeds unless some reachable
node is unserializable, in which case it raises that node's error — the
first one met in depth-first preorder.  `vis` is the pickle memo (already
serialized identities are not revisited, which is how real pickling
handles cycles and shared references).  A composite object's own failure
(its class or reduce machinery) is raised before its members are visited.
`lost` and `future` placeholder instances are plain objects holding a
string respectively an int, hence always serializable. -/
def dumps (h : Heap) : Nat → List Nat → Nat → Except PErr (List Nat)
  | 0, _, _ => .error .fuelErr
  | f + 1, vis, i =>
    if vis.contains i then .ok vis
    else
      match h i with
      | .atom p _ _ => match p with | some e => .error e | none => .ok (i :: vis)
      | .intObj _ => .ok (i :: vis)
      | .strObj _ => .ok (i :: vis)
      | .pynone => .ok (i :: vis)
      | .lost _ => .ok (i :: vis)
      | .future _ => .ok (i :: vis)
      | .ns a o _ _ _ =>
        match o with
        | some e => .error e
        | none => dumpsList (dumps h f) (i :: vis) (a.map (fun p => p.2))
      | .pylist es o =>
        match o with
        | some e => .error e
        | none => dumpsList (dumps h f) (i :: vis) es
      | .pydict es =>
        dumpsList (dumps h f) (i :: vis) (es.foldr (fun p acc => p.1 :: p.2 :: acc) [])

/-- `UnpickleableItemHelper.is_pickleable`: probe `dill.dumps` and map any
exception whatsoever to `False` (the source catches bare `Exception`). -/
def is_pickleable (st : St) (i : Nat) : Bool :=
  match dumps st.heap (st.next + 1) [] i with
  | .ok _ => true
  | .error _ => false

/-- `copy.copy(obj)`: allocates a fresh shallow copy with the same direct
contents; immutable primitives (`int`, `str`, `None`) are returned
unchanged, exactly as CPython's `copy.copy` does; an uncopyable object
raises `TypeError`. -/
def pyCopy (st : St) (i : Nat) : Except PErr Nat × St :=
  match st.heap i with
  | .atom p c r =>
    if c then (.ok st.next, (alloc st (.atom p c r)).2)
    else (.error .typeErr, st)
  | .ns a o cp cs it =>
    if cp then (.ok st.next, (alloc st (.ns a o cp cs it)).2)
    else (.error .typeErr, st)
  | .pylist es o => (.ok st.next, (alloc st (.pylist es o)).2)
  | .pydict es => (.ok st.next, (alloc st (.pydict es)).2)
  | .intObj _ => (.ok i, st)
  | .strObj _ => (.ok i, st)
  | .pynone => (.ok i, st)
  | .lost r => (.ok st.next, (alloc st (.lost r)).2)
  | .future t => (.ok st.next, (alloc st (.future t)).2)

/-- Result of a walker step: either an exception escaping the walker, or
the identity of the replacement object, together with the state after the
step (Python exceptions do not roll mutations back, so the state is
returned in both cases). -/
def WRes : Type := Except PErr Nat × St

/-- `UnpickleableItemHelper.handle_member`, parameterised by the recursive
call `recur` (`recursively_strip_invalid` at one less fuel).  Source:
`try: dill.dumps(obj)` — on success return `obj` unchanged; on
`pickle.PicklingError` return a fresh `LostObject(obj)` (note: without
consulting or updating `seen`); on `TypeError`, if the identity is in
`seen` return the recorded replacement, or a `FutureObject` of the identity
when the entry is still the in-progress `None` marker, else recurse; any
other exception propagates. -/
def handle_member (recur : St → Nat → WRes) (st : St) (v : Nat) : WRes :=
  match dumps st.heap (st.next + 1) [] v with
  | .ok _ => (.ok v, st)
  | .error .picklingErr =>
    let (l, st2) := alloc st (.lost (reprOf (st.heap v)))
    (.ok l, st2)
  | .error .typeErr =>
    match st.seen.lookup v with
    | some (some r) => (.ok r, st)
    | some none =>
      let (fid, st2) := alloc st (.future v)
      (.ok fid, st2)
    | none => recur st v
  | .error e => (.error e, st)

/-- The `for key, val in vars(obj).items(): setattr(obj, key, ...)` loop of
`handle_namespace_item`, reading the live attribute dictionary at each
step (each `setattr` only rebinds the key just visited, so the iteration
is safe).  `k` counts remaining steps, `idx` is the position. -/
def nsLoop (recur : St → Nat → WRes) (c : Nat) :
    Nat → Nat → St → Except PErr Unit × St
  | 0, _, st => (.ok (), st)
  | k + 1, idx, st =>
    match (attrsOf (st.heap c))[idx]? with
    | none => (.ok (), st)
    | some (key, v) =>
      match handle_member recur st v with
      | (.error e, st2) => (.error e, st2)
      | (.ok r, st2) => nsLoop recur c k (idx + 1) (setAttr st2 c key r)

/-- Python `set(...) == set(...)` on two lists of identities. -/
def listSetEq (a b : List Nat) : Bool :=
  a.all (fun x => b.contains x) && b.all (fun x => a.contains x)

/-- `UnpickleableItemHelper.handle_namespace_item`: remember the identity
set of the attribute values, rewrite every attribute through
`handle_member`, and if the identity set is unchanged afterwards replace
the whole node by `LostObject(obj)`, else keep the partially repaired
copy. -/
def handle_namespace_item (recur : St → Nat → WRes) (st : St) (c : Nat) : WRes :=
  let prior := (attrsOf (st.heap c)).map (fun p => p.2)
  match nsLoop recur c ((attrsOf (st.heap c)).length + 1) 0 st with
  | (.error e, st2) => (.error e, st2)
  | (.ok _, st2) =>
    let after := (attrsOf (st2.heap c)).map (fun p => p.2)
    if listSetEq prior after then
      let l := st2.next
      let st3 := (alloc st2 (.lost (reprOf (st2.heap c)))).2
      (.ok l, st3)
    else (.ok c, st2)

/-- The list half of `handle_iterable`: `for index, val in enumerate(obj):
obj[index] = self.handle_member(val)` over a `list`, which replaces each
position in place (the length never changes, so the live iterator is
safe). -/
def listLoop (recur : St → Nat → WRes) (c : Nat) :
    Nat → Nat → St → Except PErr Unit × St
  | 0, _, st => (.ok (), st)
  | k + 1, idx, st =>
    match st.heap c with
    | .pylist es _ =>
      match es[idx]? with
      | none => (.ok (), st)
      | some v =>
        match handle_member recur st v with
        | (.error e, st2) => (.error e, st2)
        | (.ok r, st2) => listLoop recur c k (idx + 1) (setElem st2 c idx r)
    | _ => (.ok (), st)

/-- Does the heap node at the given identity equal the Python int `n`?
Used for dict subscription with an `int` key, which compares by value. -/
def isIntN (nd : Node) (n : Nat) : Bool :=
  match nd with
  | .intObj m => m == n
  | _ => false

/-- `obj[n] = r` on a dict node with the Python `int` `n` as key: replace
the value of an existing key equal to `n`, otherwise insert a fresh `int`
key at the end (growing the dict). -/
def dictAssignInt (st : St) (c : Nat) (n : Nat) (r : Nat) : St :=
  match st.heap c with
  | .pydict es =>
    if es.any (fun p => isIntN (st.heap p.1) n) then
      let es3 := es.map (fun p => if isIntN (st.heap p.1) n then (p.1, r) else p)
      { st with heap := hset st.heap c (.pydict es3) }
    else
      let kid := st.next
      let st2 := (alloc st (.intObj n)).2
      match st2.heap c with
      | .pydict es2 => { st2 with heap := hset st2.heap c (.pydict (es2 ++ [(kid, r)])) }
      | _ => st2
  | _ => st

/-- The dict half of `handle_iterable`: `enumerate` over a dict yields its
keys, so the loop body is `obj[index] = self.handle_member(key)` — an
assignment with an `int` subscript.  The live dict iterator raises
`RuntimeError` at its next `__next__` whenever the dict's size has changed
since the iterator was created (`size0`), which happens as soon as an
`int` key absent from the dict is inserted. -/
def dictLoop (recur : St → Nat → WRes) (c : Nat) (size0 : Nat) :
    Nat → Nat → St → Except PErr Unit × St
  | 0, _, st => (.ok (), st)
  | k + 1, idx, st =>
    match st.heap c with
    | .pydict es =>
      if es.length ≠ size0 then (.error .runtimeErr, st)
      else
        match es[idx]? with
        | none => (.ok (), st)
        | some (kId, _) =>
          match handle_member recur st kId with
          | (.error e, st2) => (.error e, st2)
          | (.ok r, st2) => dictLoop recur c size0 k (idx + 1) (dictAssignInt st2 c idx r)
    | _ => (.ok (), st)

/-- `UnpickleableItemHelper.handle_iterable`: the source's single
`enumerate`-and-subscript loop, whose behaviour depends on the concrete
container (in place for a `list`; key-iteration plus `int`-key insertion
for a `dict`); `enumerate` on a non-iterable raises `TypeError`
(unreachable: only non-endpoint containers arrive here). -/
def handle_iterable (recur : St → Nat → WRes) (st : St) (c : Nat) : WRes :=
  match st.heap c with
  | .pylist es _ =>
    match listLoop recur c (es.length + 1) 0 st with
    | (.error e, st2) => (.error e, st2)
    | (.ok _, st2) => (.ok c, st2)
  | .pydict es =>
    match dictLoop recur c es.length (es.length + 2) 0 st with
    | (.error e, st2) => (.error e, st2)
    | (.ok _, st2) => (.ok c, st2)
  | _ => (.error .typeErr, st)

/-- `UnpickleableItemHelper.handle_shallow_copy`: dispatch on
`hasattr(obj, "__dict__")`, then record `seen[id(obj)] = ret` — for the
identity of the shallow copy, not of the original (an exception escaping
the handlers skips the recording, as in the source). -/
def handle_shallow_copy (recur : St → Nat → WRes) (st : St) (c : Nat) : WRes :=
  match (if hasDictB (st.heap c) then handle_namespace_item recur st c
         else handle_iterable recur st c) with
  | (.error e, st2) => (.error e, st2)
  | (.ok r, st2) => (.ok r, seenSetSt st2 c (some r))

/-- `UnpickleableItemHelper.handle_non_endpoint`: attempt `copy.copy`; on
`TypeError` the object is lost (recorded in `seen` under the original's
identity), otherwise continue on the shallow copy. -/
def handle_non_endpoint (recur : St → Nat → WRes) (st : St) (x : Nat) : WRes :=
  match pyCopy st x with
  | (.error _, st2) =>
    let (l, st3) := alloc st2 (.lost (reprOf (st2.heap x)))
    (.ok l, seenSetSt st3 x (some l))
  | (.ok c, st2) => handle_shallow_copy recur st2 c

/-- `UnpickleableItemHelper.handle_unpickleable`: endpoints are replaced
wholesale by a `LostObject` recorded in `seen`; other nodes are copied and
descended into. -/
def handle_unpickleable (recur : St → Nat → WRes) (st : St) (x : Nat) : WRes :=
  if is_endpoint (st.heap x) then
    let (l, st2) := alloc st (.lost (reprOf (st.heap x)))
    (.ok l, seenSetSt st2 x (some l))
  else
    handle_non_endpoint recur st x

/-- `UnpickleableItemHelper.recursively_strip_invalid`: mark the identity
as in progress (`seen[id(obj)] = None`), keep the object unchanged if it
is pickleable (recording `seen[id(obj)] = obj`), else repair it.  Fuel
bounds the recursion depth; the `print` calls of the source are pure
tracing and are not modelled. -/
def recursively_strip_invalid : Nat → St → Nat → WRes
  | 0, st, _ => (.error .fuelErr, st)
  | f + 1, st, x =>
    let st1 := seenSetSt st x none
    if is_pickleable st1 x then (.ok x, seenSetSt st1 x (some x))
    else handle_unpickleable (recursively_strip_invalid f) st1 x

/-- Resolve `self.seen[t]` during the fill phase: a missing key raises
`KeyError`; an entry still holding the `None` marker yields the Python
`None` object (allocated fresh here; identity of `None` is never relied
upon by the theorems); otherwise the recorded replacement. -/
def resolveSeen (st : St) (t : Nat) : Except PErr Nat × St :=
  match st.seen.lookup t with
  | none => (.error .keyErr, st)
  | some none =>
    let (nid, st2) := alloc st .pynone
    (.ok nid, st2)
  | some (some r) => (.ok r, st)

/-- First loop of `fill_in_attributes`: replace every attribute holding a
`FutureObject` by `self.seen[val.id]`. -/
def fillAttrsLoop (c : Nat) : List (String × Nat) → St → Except PErr Unit × St
  | [], st => (.ok (), st)
  | (key, v) :: rest, st =>
    match st.heap v with
    | .future t =>
      match resolveSeen st t with
      | (.error e, st2) => (.error e, st2)
      | (.ok r, st2) => fillAttrsLoop c rest (setAttr st2 c key r)
    | _ => fillAttrsLoop c rest st

/-- Second loop of `fill_in_attributes` / `fill_in_members`: recurse into
every member not yet in `seen_while_filling`. -/
def fillRecurseLoop (recurF : St → Nat → Except PErr Unit × St) :
    List Nat → St → Except PErr Unit × St
  | [], st => (.ok (), st)
  | v :: rest, st =>
    if st.seenFill.contains v then fillRecurseLoop recurF rest st
    else
      match recurF st v with
      | (.error e, st2) => (.error e, st2)
      | (.ok _, st2) => fillRecurseLoop recurF rest st2

/-- `UnpickleableItemHelper.fill_in_attributes`. -/
def fill_in_attributes (recurF : St → Nat → Except PErr Unit × St)
    (st : St) (x : Nat) : Except PErr Unit × St :=
  match fillAttrsLoop x (attrsOf (st.heap x)) st with
  | (.error e, st2) => (.error e, st2)
  | (.ok _, st2) => fillRecurseLoop recurF ((attrsOf (st2.heap x)).map (fun p => p.2)) st2

/-- First loop of `fill_in_members` on a list: replace `FutureObject`
elements in place. -/
def fillListLoop (c : Nat) : Nat → Nat → St → Except PErr Unit × St
  | 0, _, st => (.ok (), st)
  | k + 1, idx, st =>
    match st.heap c with
    | .pylist es _ =>
      match es[idx]? with
      | none => (.ok (), st)
      | some v =>
        match st.heap v with
        | .future t =>
          match resolveSeen st t with
          | (.error e, st2) => (.error e, st2)
          | (.ok r, st2) => fillListLoop c k (idx + 1) (setElem st2 c idx r)
        | _ => fillListLoop c k (idx + 1) st
    | _ => (.ok (), st)

/-- First loop of `fill_in_members` on a dict: `enumerate` yields keys, a
`FutureObject` key triggers `obj[index] = self.seen[val.id]` — the same
`int`-subscript assignment and live-iterator size check as in
`handle_iterable`. -/
def fillDictLoop (c : Nat) (size0 : Nat) : Nat → Nat → St → Except PErr Unit × St
  | 0, _, st => (.ok (), st)
  | k + 1, idx, st =>
    match st.heap c with
    | .pydict es =>
      if es.length ≠ size0 then (.error .runtimeErr, st)
      else
        match es[idx]? with
        | none => (.ok (), st)
        | some (kId, _) =>
          match st.heap kId with
          | .future t =>
            match resolveSeen st t with
            | (.error e, st2) => (.error e, st2)
            | (.ok r, st2) => fillDictLoop c size0 k (idx + 1) (dictAssignInt st2 c idx r)
          | _ => fillDictLoop c size0 k (idx + 1) st
    | _ => (.ok (), st)

/-- `UnpickleableItemHelper.fill_in_members`, dispatching on the concrete
container like `handle_iterable` does.  Its second loop (`for val in
obj`) iterates the list's elements respectively the dict's keys — dict
values are never recursed into by the source. -/
def fill_in_members (recurF : St → Nat → Except PErr Unit × St)
    (st : St) (x : Nat) : Except PErr Unit × St :=
  match st.heap x with
  | .pylist es _ =>
    match fillListLoop x (es.length + 1) 0 st with
    | (.error e, st2) => (.error e, st2)
    | (.ok _, st2) =>
      match st2.heap x with
      | .pylist es2 _ => fillRecurseLoop recurF es2 st2
      | _ => (.ok (), st2)
  | .pydict es =>
    match fillDictLoop x es.length (es.length + 2) 0 st with
    | (.error e, st2) => (.error e, st2)
    | (.ok _, st2) =>
      match st2.heap x with
      | .pydict es2 => fillRecurseLoop recurF (es2.map (fun p => p.1)) st2
      | _ => (.ok (), st2)
  | _ => (.ok (), st)

/-- `UnpickleableItemHelper.fill_in_future_objects`: mark the identity in
`seen_while_filling`, stop at endpoints, and dispatch on
`hasattr(obj, "__dict__")`.  A `LostObject` or `FutureObject` has an
instance `__dict__` holding only a string respectively an int, so the
attribute walk over it finds no `FutureObject` values and its recursion
reaches only endpoints; the model folds that to a no-op. -/
def fill_in_future_objects : Nat → St → Nat → Except PErr Unit × St
  | 0, st, _ => (.error .fuelErr, st)
  | f + 1, st, x =>
    let st1 := { st with seenFill := x :: st.seenFill }
    if is_endpoint (st1.heap x) then (.ok (), st1)
    else
      match st1.heap x with
      | .ns _ _ _ _ _ => fill_in_attributes (fill_in_future_objects f) st1 x
      | .pylist _ _ => fill_in_members (fill_in_future_objects f) st1 x
      | .pydict _ => fill_in_members (fill_in_future_objects f) st1 x
      | _ => (.ok (), st1)

/-- `UnpickleableItemHelper.serializable_copy` run on the heap `h` whose
original identities live below `n` (`id(item)` seeding `seen` is the
constructor's `self.seen = {id(item): None}`).  On an uncopyable root the
whole item becomes a `LostObject`; otherwise the repaired pending copy is
produced, `seen[id(item)]` is pointed at it, and the `FutureObject` fill
pass runs over it. -/
def serializable_copy (h : Heap) (n : Nat) (item : Nat) : WRes :=
  let st0 : St := ⟨h, n, [(item, none)], []⟩
  match pyCopy st0 item with
  | (.error _, st1) =>
    let (l, st2) := alloc st1 (.lost (reprOf (st1.heap item)))
    (.ok l, st2)
  | (.ok c, st1) =>
    match recursively_strip_invalid (st1.next + 1) st1 c with
    | (.error e, st2) => (.error e, st2)
    | (.ok pending, st2) =>
      let st3 := seenSetSt st2 item (some pending)
      match fill_in_future_objects (st3.next + 1) st3 pending with
      | (.error e, st4) => (.error e, st4)
      | (.ok _, st4) => (.ok pending, st4)

/-- Result component of one repair run. -/
def repairResult (h : Heap) (n : Nat) (item : Nat) : Except PErr Nat :=
  (serializable_copy h n item).1

/-- Final heap of one repair run. -/
def repairHeap (h : Heap) (n : Nat) (item : Nat) : Heap :=
  (serializable_copy h n item).2.heap

/-- The attribute dictionary of the object at `i` in the heap. -/
def getAttr (h : Heap) (i : Nat) (k : String) : Option Nat :=
  (attrsOf (h i)).lookup k

/-- The byte string `dill.dumps` produces, abstracted as the serialized
graph itself: the root identity together with the heap it lives in. -/
def Bytes : Type := Nat × Heap

/-- `Serializer.to_bytes`: `try: return dill.dumps(obj) except TypeError:`
run the repair walker and re-encode its result.  Only `TypeError` from the
direct encode is caught; any other encode failure, any exception escaping
the walker, and any failure of the unguarded re-encode all propagate. -/
def Serializer.to_bytes (h : Heap) (n : Nat) (obj : Nat) : Except PErr Bytes :=
  match dumps h (n + 1) [] obj with
  | .ok _ => .ok (obj, h)
  | .error .typeErr =>
    match serializable_copy h n obj with
    | (.error e, _) => .error e
    | (.ok cleaned, st2) =>
      match dumps st2.heap (st2.next + 1) [] cleaned with
      | .ok _ => .ok (cleaned, st2.heap)
      | .error e => .error e
  | .error e => .error e

/-- The backing file of a `Serializer`: absent, present but empty, or
holding a previously written byte string. -/
inductive Store where
  | absent
  | empty
  | data (b : Bytes)

/-- `self.file.path.read_bytes()`: a missing file raises
`FileNotFoundError`; an empty file yields an empty byte string.  `RawBytes`
is what the read returns. -/
inductive RawBytes where
  | emptyRaw
  | payload (b : Bytes)

/-- Backing-store read. -/
def readBytes : Store → Except PErr RawBytes
  | .absent => .error .fileNotFound
  | .empty => .ok .emptyRaw
  | .data b => .ok (.payload b)

/-- `Serializer.from_bytes` = `dill.loads`: decoding an empty byte string
raises `EOFError` (as `dill.loads(b"")` does); otherwise the serialized
graph comes back. -/
def Serializer.from_bytes : RawBytes → Except PErr Bytes
  | .emptyRaw => .error .eofErr
  | .payload b => .ok b

/-- `Serializer.deserialize`: `try: return self.from_bytes(
self.file.path.read_bytes()) except EOFError: return None`.  Only
`EOFError` is converted to `None`; every other exception (in particular
`FileNotFoundError` from the read) propagates. -/
def Serializer.deserialize (s : Store) : Except PErr (Option Bytes) :=
  match (do Serializer.from_bytes (← readBytes s) : Except PErr Bytes) with
  | .error .eofErr => .ok none
  | .error e => .error e
  | .ok v => .ok (some v)

/-- `Serializer.serialize`: `self.file.path.write_bytes(self.to_bytes(obj))`
— the argument is fully evaluated before `write_bytes` runs, so an encode
failure leaves the store untouched. -/
def Serializer.serialize (s : Store) (h : Heap) (n : Nat) (obj : Nat) :
    Store × Except PErr Unit :=
  match Serializer.to_bytes h n obj with
  | .error e => (s, .error e)
  | .ok b => (.data b, .ok ())

/-- A placeholder value: a `LostObject` instance (carrying the captured
`repr`) or the `Lost` absorbing singleton (the `Singleton` base class,
imported from a module outside the walker, makes every `Lost()` the same
instance, which the single constructor models). -/
inductive Placeholder where
  | lostObj (reprS : String)
  | lostSingleton
deriving DecidableEq

/-- Is the name a reserved dunder name?  Source test:
`name.startswith("__") and name.endswith("__")`, i.e. the first two and
the last two characters are underscores (stated over the character list so
that it evaluates by reduction). -/
def isDunder (name : String) : Bool :=
  (name.data.take 2 == ['_', '_']) && (name.data.reverse.take 2 == ['_', '_'])

/-- `Lost.__getattr__` / `LostObject.__getattr__`: a dunder name raises
`AttributeError(name)`; any other name yields the absorbing `Lost()`
singleton (`Lost.__getattr__` returns `self`, which by the `Singleton`
base is that same instance). -/
def lostGetattr (p : Placeholder) (name : String) : Except PErr Placeholder :=
  if isDunder name then .error .attributeErr
  else
    match p with
    | .lostObj _ => .ok .lostSingleton
    | .lostSingleton => .ok .lostSingleton

/-- `Lost.__len__` / `LostObject.__len__`: always zero. -/
def lostLen (_ : Placeholder) : Nat := 0

/-- Iterating a placeholder: `__iter__` returns an object whose `__next__`
immediately raises `StopIteration`, so iteration yields no elements. -/
def lostIterate (_ : Placeholder) : List Placeholder := []

/-- Subscription `p[i]`: special-method lookup happens on the type and
bypasses instance `__getattr__`; neither `Lost` nor `LostObject` defines
`__getitem__`, so subscription raises `TypeError` (object is not
subscriptable). -/
def lostGetItem (_ : Placeholder) (_ : Nat) : Except PErr Placeholder :=
  .error .typeErr

/-- Condition (a) of the specification's endpoint contract, in the spec's
words: the object "exposes no per-instance mutable attribute storage that
the walker could safely overwrite field-by-field". -/
def noAttrStorageB (n : Node) : Bool :=
  !hasDictB n || customSetattrB n

/-- Condition (b) of the specification's endpoint contract, in the spec's
words: the object "is not a container the walker knows how to
iterate/index", with text and byte strings excluded from container
status. -/
def notContainerB (n : Node) : Bool :=
  !hasIterB n || isStrBytesB n

/-- A heap holding one unserializable leaf object whose direct encode
raises `pickle.PicklingError` rather than `TypeError` (the kind of failure
`handle_member` itself anticipates from `dill.dumps`). -/
def sockHeap : Heap := fun _ => .atom (some .picklingErr) true "socket"

/-- A mapping `{"sock": <unpicklable>}`: identity 0 is the dict, identity
1 its string key, identity 2 the unpicklable value whose encode raises
`TypeError`. -/
def mapHeap : Heap := fun i =>
  if i = 0 then .pydict [(1, 2)]
  else if i = 1 then .strObj "sock"
  else .atom (some .typeErr) true "socketobj"

/-- An object whose attributes `a` and `b` reference the same unpicklable
sub-object (identity 2), whose encode failure is `pickle.PicklingError`. -/
def sharedPicklingHeap : Heap := fun i =>
  if i = 0 then .ns [("a", 2), ("b", 2)] none true false false
  else .atom (some .picklingErr) true "socketobj"

/-- A `list` subclass instance whose own direct encoding raises
`TypeError` (bad reduce machinery) while its single element, the int 7 at
identity 1, is perfectly serializable. -/
def badListHeap : Heap := fun i =>
  if i = 0 then .pylist [1] (some .typeErr) else .intObj 7

/-- The claim's canonical cyclic graph: root `a` (identity 0) with
`a.child = b` and an unpicklable endpoint attribute `a.sock` (identity 2,
its `repr` string arbitrary), `b` (identity 1) with `b.parent = a`; the
rest of the heap is arbitrary. -/
def cycleHeap (r : String) (junk : Nat → Node) : Heap := fun i =>
  if i = 0 then .ns [("child", 1), ("sock", 2)] none true false false
  else if i = 1 then .ns [("parent", 0)] none true false false
  else if i = 2 then .atom (some .typeErr) true r
  else junk i

/-- Frame predicate for the repair walk: the heap still agrees with the
original heap `h0` on every original identity (those below `n0`), and the
allocator has not moved below `n0`. -/
def Pres (h0 : Heap) (n0 : Nat) (st : St) : Prop :=
  (∀ i, i < n0 → st.heap i = h0 i) ∧ n0 ≤ st.next

/-- A walker step respects the frame predicate. -/
def PresStep (h0 : Heap) (n0 : Nat) (g : St → Nat → WRes) : Prop :=
  ∀ st x, Pres h0 n0 st → Pres h0 n0 (g st x).2

/-- A fill-phase step respects the frame predicate. -/
def PresStepU (h0 : Heap) (n0 : Nat) (g : St → Nat → Except PErr Unit × St) : Prop :=
  ∀ st x, Pres h0 n0 st → Pres h0 n0 (g st x).2

/-- Well-formed original graph: every original object refers only to
original identities, and no original object is a `FutureObject` (those
exist only inside repaired graphs). -/
def WfOrig (h0 : Heap) (n0 : Nat) : Prop :=
  ∀ i, i < n0 → (h0 i).memberIds.all (fun j => decide (j < n0)) = true ∧
    isFutureB (h0 i) = false

/-- Is the node one of the immutable primitives that `copy.copy` returns
unchanged? -/
def immutB : Node → Bool
  | .intObj _ => true
  | .strObj _ => true
  | .pynone => true
  | _ => false

/-- A conveniently small well-formed heap for frame-witness purposes: an
object with one unpicklable attribute. -/
def witnessHeap : Heap := fun i =>
  if i = 0 then .ns [("a", 1)] none true false false
  else .atom (some .typeErr) true "socketobj"

/-- Is the node an opaque leaf object? -/
def isAtomB : Node → Bool
  | .atom _ _ _ => true
  | _ => false

/-- The direct-encode behaviour of a leaf object (`None` when `dill.dumps`
succeeds on it, otherwise the exception it raises). -/
def pickOf (h : Heap) (v : Nat) : Option PErr :=
  match h v with
  | .atom p _ _ => p
  | _ => none

/-- Pure simulation of the walker's `handle_member` fold over a namespace
node whose attribute values are all leaf objects: returns the rewritten
attribute list, the final original-to-placeholder table (typeErr members
only, newest first), and the final allocation counter.  Pickleable members
stay; a `TypeError` member resolves through the table (one shared
`LostObject` per original identity); a `PicklingError` member burns a
fresh identity every time it occurs. -/
def memberSim (h : Heap) : List (String × Nat) → List (Nat × Nat) → Nat →
    List (String × Nat) × List (Nat × Nat) × Nat
  | [], m, nu => ([], m, nu)
  | (k, v) :: rest, m, nu =>
    match pickOf h v with
    | none =>
      let t := memberSim h rest m nu
      ((k, v) :: t.1, t.2)
    | some .typeErr =>
      match m.lookup v with
      | some l =>
        let t := memberSim h rest m nu
        ((k, l) :: t.1, t.2)
      | none =>
        let t := memberSim h rest ((v, nu) :: m) (nu + 1)
        ((k, nu) :: t.1, t.2)
    | some _ =>
      let t := memberSim h rest m (nu + 1)
      ((k, nu) :: t.1, t.2)

/-- The stable per-member replacement function induced by a finished
placeholder table: a pickleable member maps to itself, any other member to
its table entry. -/
def simRes (h : Heap) (mF : List (Nat × Nat)) (v : Nat) : Nat :=
  match pickOf h v with
  | none => v
  | some _ => (mF.lookup v).getD 0

/-- Invariant tying the walker's state, midway through the
`handle_namespace_item` loop over the shallow root copy at identity
`n + 1`, to the pure simulation: `done` is the already rewritten prefix,
`rest` the untouched suffix, `m` the placeholder table, `nu` the
allocation counter.  The conjuncts: counter agreement; freshness floor;
the exact shape of the `seen` dictionary (table entries newest first over
the two markers set before descending); the live attribute dictionary of
the copy; originals untouched; every table placeholder allocated as a
`LostObject` in the fresh zone; table keys are unserializable-by-TypeError
originals; every rewritten value is an original leaf or a `LostObject`. -/
def SimInv (h : Heap) (n : Nat) (rootOwn : Option PErr) (done rest : List (String × Nat))
    (m : List (Nat × Nat)) (nu : Nat) (st : St) : Prop :=
  st.next = nu ∧
  n + 2 ≤ nu ∧
  st.seen = m.map (fun p => (p.1, some p.2)) ++ [(n, none), (0, none)] ∧
  st.heap (n + 1) = .ns (done ++ rest) rootOwn true false false ∧
  (∀ i, i < n → st.heap i = h i) ∧
  (∀ p ∈ m, isLostB (st.heap p.2) = true ∧ n + 2 ≤ p.2 ∧ p.2 < nu) ∧
  (∀ p ∈ m, pickOf h p.1 = some .typeErr ∧ p.1 < n) ∧
  (∀ q ∈ done, (isAtomB (st.heap q.2) = true ∧ q.2 < n) ∨
    (isLostB (st.heap q.2) = true ∧ n + 2 ≤ q.2 ∧ q.2 < nu))

def TblInv (h : Heap) (n : Nat) (m : List (Nat × Nat)) (nu : Nat) : Prop :=
  (m.map (fun p => p.1)).Nodup ∧ (m.map (fun p => p.2)).Nodup ∧
  ∀ p ∈ m, p.1 < n ∧ pickOf h p.1 = some .typeErr ∧ n + 2 ≤ p.2 ∧ p.2 < nu

def heapC2 : Heap := fun i =>
  if i = 0 then .ns [("a", 1), ("b", 1), ("c", 2)] none true false false
  else if i = 1 then .atom (some .typeErr) true "generator"
  else .atom none true "payload"

def heapC6 : Heap := fun i =>
  if i = 0 then .ns [("x", 1)] (some .typeErr) true false false
  else .atom none true "payload"

theorem pres_hset {h0 : Heap} {n0 : Nat} {st : St} (hp : Pres h0 n0 st) {c : Nat}
    (hc : n0 ≤ c) (nd : Node) :
    Pres h0 n0 { st with heap := hset st.heap c nd } := by
  refine ⟨fun i hi => ?_, hp.2⟩
  show hset st.heap c nd i = h0 i
  unfold hset
  rw [if_neg (by omega)]
  exact hp.1 i hi

theorem pres_alloc {h0 : Heap} {n0 : Nat} {st : St} (hp : Pres h0 n0 st) (nd : Node) :
    Pres h0 n0 (alloc st nd).2 := by
  have hn := hp.2
  unfold alloc
  refine ⟨fun i hi => ?_, ?_⟩
  · show hset st.heap st.next nd i = h0 i
    unfold hset
    rw [if_neg (by omega)]
    exact hp.1 i hi
  · show n0 ≤ st.next + 1
    omega

theorem pres_seenSetSt {h0 : Heap} {n0 : Nat} {st : St} (hp : Pres h0 n0 st)
    (k : Nat) (v : Option Nat) : Pres h0 n0 (seenSetSt st k v) :=
  ⟨hp.1, hp.2⟩

theorem pres_setAttr {h0 : Heap} {n0 : Nat} {st : St} (hp : Pres h0 n0 st) {c : Nat}
    (hc : n0 ≤ c) (k : String) (v : Nat) : Pres h0 n0 (setAttr st c k v) := by
  unfold setAttr
  split
  · exact pres_hset hp hc _
  · exact hp

theorem pres_setElem {h0 : Heap} {n0 : Nat} {st : St} (hp : Pres h0 n0 st) {c : Nat}
    (hc : n0 ≤ c) (i v : Nat) : Pres h0 n0 (setElem st c i v) := by
  unfold setElem
  split
  · exact pres_hset hp hc _
  · exact hp

theorem pres_dictAssignInt {h0 : Heap} {n0 : Nat} {st : St} (hp : Pres h0 n0 st) {c : Nat}
    (hc : n0 ≤ c) (n r : Nat) : Pres h0 n0 (dictAssignInt st c n r) := by
  unfold dictAssignInt
  split
  · split
    · exact pres_hset hp hc _
    · have h2 := pres_alloc hp (.intObj n)
      dsimp only
      split
      · exact pres_hset h2 hc _
      · exact h2
  · exact hp

theorem pres_resolveSeen {h0 : Heap} {n0 : Nat} {st : St} (hp : Pres h0 n0 st) (t : Nat) :
    Pres h0 n0 (resolveSeen st t).2 := by
  unfold resolveSeen
  split
  · exact hp
  · exact pres_alloc hp _
  · exact hp

theorem pres_pyCopy {h0 : Heap} {n0 : Nat} {st : St} (hp : Pres h0 n0 st) (i : Nat) :
    Pres h0 n0 (pyCopy st i).2 := by
  unfold pyCopy
  split
  · split
    · exact pres_alloc hp _
    · exact hp
  · split
    · exact pres_alloc hp _
    · exact hp
  · exact pres_alloc hp _
  · exact pres_alloc hp _
  · exact hp
  · exact hp
  · exact hp
  · exact pres_alloc hp _
  · exact pres_alloc hp _

theorem presStep_handle_member {h0 : Heap} {n0 : Nat} {recur : St → Nat → WRes}
    (hr : PresStep h0 n0 recur) : PresStep h0 n0 (handle_member recur) := by
  intro st x hp
  unfold handle_member
  split
  · exact hp
  · exact pres_alloc hp _
  · split
    · exact hp
    · exact pres_alloc hp _
    · exact hr st x hp
  · exact hp

theorem pres_nsLoop {h0 : Heap} {n0 : Nat} {recur : St → Nat → WRes}
    (hr : PresStep h0 n0 recur) {c : Nat} (hc : n0 ≤ c) :
    ∀ (k idx : Nat) (st : St), Pres h0 n0 st → Pres h0 n0 (nsLoop recur c k idx st).2 := by
  intro k
  induction k with
  | zero => intro idx st hp; exact hp
  | succ k ih =>
    intro idx st hp
    unfold nsLoop
    split
    · exact hp
    · next key v heqa =>
      split
      · next e st2 heq =>
        have h2 := presStep_handle_member hr st v hp
        rw [heq] at h2
        exact h2
      · next r st2 heq =>
        have h2 := presStep_handle_member hr st v hp
        rw [heq] at h2
        exact ih _ _ (pres_setAttr h2 hc _ _)

theorem pres_listLoop {h0 : Heap} {n0 : Nat} {recur : St → Nat → WRes}
    (hr : PresStep h0 n0 recur) {c : Nat} (hc : n0 ≤ c) :
    ∀ (k idx : Nat) (st : St), Pres h0 n0 st → Pres h0 n0 (listLoop recur c k idx st).2 := by
  intro k
  induction k with
  | zero => intro idx st hp; exact hp
  | succ k ih =>
    intro idx st hp
    unfold listLoop
    split
    · split
      · exact hp
      · next v heqa =>
        split
        · next e st2 heq =>
          have h2 := presStep_handle_member hr st v hp
          rw [heq] at h2
          exact h2
        · next r st2 heq =>
          have h2 := presStep_handle_member hr st v hp
          rw [heq] at h2
          exact ih _ _ (pres_setElem h2 hc _ _)
    · exact hp

theorem pres_dictLoop {h0 : Heap} {n0 : Nat} {recur : St → Nat → WRes}
    (hr : PresStep h0 n0 recur) {c : Nat} (hc : n0 ≤ c) (size0 : Nat) :
    ∀ (k idx : Nat) (st : St), Pres h0 n0 st →
      Pres h0 n0 (dictLoop recur c size0 k idx st).2 := by
  intro k
  induction k with
  | zero => intro idx st hp; exact hp
  | succ k ih =>
    intro idx st hp
    unfold dictLoop
    split
    · split
      · exact hp
      · split
        · exact hp
        · next kId w heqa =>
          split
          · next e st2 heq =>
            have h2 := presStep_handle_member hr st kId hp
            rw [heq] at h2
            exact h2
          · next r st2 heq =>
            have h2 := presStep_handle_member hr st kId hp
            rw [heq] at h2
            exact ih _ _ (pres_dictAssignInt h2 hc _ _)
    · exact hp

theorem pres_handle_namespace_item {h0 : Heap} {n0 : Nat} {recur : St → Nat → WRes}
    (hr : PresStep h0 n0 recur) {st : St} {c : Nat} (hc : n0 ≤ c) (hp : Pres h0 n0 st) :
    Pres h0 n0 (handle_namespace_item recur st c).2 := by
  unfold handle_namespace_item
  have hl := pres_nsLoop hr hc ((attrsOf (st.heap c)).length + 1) 0 st hp
  split
  · next heq => rw [heq] at hl; exact hl
  · next heq =>
    rw [heq] at hl
    dsimp only
    split
    · exact pres_alloc hl _
    · exact hl

theorem pres_handle_iterable {h0 : Heap} {n0 : Nat} {recur : St → Nat → WRes}
    (hr : PresStep h0 n0 recur) {st : St} {c : Nat} (hc : n0 ≤ c) (hp : Pres h0 n0 st) :
    Pres h0 n0 (handle_iterable recur st c).2 := by
  unfold handle_iterable
  split
  · next es _ heq2 =>
    have hl := pres_listLoop hr hc (es.length + 1) 0 st hp
    split
    · next heq => rw [heq] at hl; exact hl
    · next heq => rw [heq] at hl; exact hl
  · next es heq2 =>
    have hl := pres_dictLoop hr hc es.length (es.length + 2) 0 st hp
    split
    · next heq => rw [heq] at hl; exact hl
    · next heq => rw [heq] at hl; exact hl
  · exact hp

theorem pres_handle_shallow_copy {h0 : Heap} {n0 : Nat} {recur : St → Nat → WRes}
    (hr : PresStep h0 n0 recur) {st : St} {c : Nat} (hc : n0 ≤ c) (hp : Pres h0 n0 st) :
    Pres h0 n0 (handle_shallow_copy recur st c).2 := by
  unfold handle_shallow_copy
  have hd : Pres h0 n0 (if hasDictB (st.heap c) then handle_namespace_item recur st c
      else handle_iterable recur st c).2 := by
    split
    · exact pres_handle_namespace_item hr hc hp
    · exact pres_handle_iterable hr hc hp
  split
  · next heq => rw [heq] at hd; exact hd
  · next heq => rw [heq] at hd; exact pres_seenSetSt hd _ _

theorem handle_shallow_copy_immut {recur : St → Nat → WRes} {st : St} {c : Nat}
    (h : immutB (st.heap c) = true) :
    handle_shallow_copy recur st c = (.error .typeErr, st) := by
  cases hn : st.heap c
  case intObj n =>
    unfold handle_shallow_copy handle_iterable
    rw [hn]
    rfl
  case strObj s =>
    unfold handle_shallow_copy handle_iterable
    rw [hn]
    rfl
  case pynone =>
    unfold handle_shallow_copy handle_iterable
    rw [hn]
    rfl
  all_goals (rw [hn] at h; simp [immutB] at h)

theorem pyCopy_ok_ge {n0 : Nat} {st : St} {x c : Nat} {st2 : St} (hnx : n0 ≤ st.next)
    (h : pyCopy st x = (.ok c, st2)) : n0 ≤ c ∨ immutB (st2.heap c) = true := by
  unfold pyCopy at h
  split at h
  · split at h
    · simp only [Prod.mk.injEq, Except.ok.injEq] at h
      left
      omega
    · exact absurd h (by simp)
  · split at h
    · simp only [Prod.mk.injEq, Except.ok.injEq] at h
      left
      omega
    · exact absurd h (by simp)
  · simp only [Prod.mk.injEq, Except.ok.injEq] at h
    left
    omega
  · simp only [Prod.mk.injEq, Except.ok.injEq] at h
    left
    omega
  · next heq =>
    simp only [Prod.mk.injEq, Except.ok.injEq] at h
    right
    rw [← h.2, ← h.1, heq]
    rfl
  · next heq =>
    simp only [Prod.mk.injEq, Except.ok.injEq] at h
    right
    rw [← h.2, ← h.1, heq]
    rfl
  · next heq =>
    simp only [Prod.mk.injEq, Except.ok.injEq] at h
    right
    rw [← h.2, ← h.1, heq]
    rfl
  · simp only [Prod.mk.injEq, Except.ok.injEq] at h
    left
    omega
  · simp only [Prod.mk.injEq, Except.ok.injEq] at h
    left
    omega

theorem pres_handle_non_endpoint {h0 : Heap} {n0 : Nat} {recur : St → Nat → WRes}
    (hr : PresStep h0 n0 recur) : PresStep h0 n0 (handle_non_endpoint recur) := by
  intro st x hp
  unfold handle_non_endpoint
  split
  · next e st2 heq =>
    have h2 := pres_pyCopy hp x
    rw [heq] at h2
    exact pres_seenSetSt (pres_alloc h2 _) _ _
  · next c st2 heq =>
    have h2 := pres_pyCopy hp x
    rw [heq] at h2
    rcases pyCopy_ok_ge hp.2 heq with hge | him
    · exact pres_handle_shallow_copy hr hge h2
    · rw [handle_shallow_copy_immut him]
      exact h2

theorem pres_handle_unpickleable {h0 : Heap} {n0 : Nat} {recur : St → Nat → WRes}
    (hr : PresStep h0 n0 recur) : PresStep h0 n0 (handle_unpickleable recur) := by
  intro st x hp
  unfold handle_unpickleable
  split
  · exact pres_seenSetSt (pres_alloc hp _) _ _
  · exact pres_handle_non_endpoint hr st x hp

theorem pres_strip {h0 : Heap} {n0 : Nat} (f : Nat) :
    PresStep h0 n0 (recursively_strip_invalid f) := by
  induction f with
  | zero => intro st x hp; exact hp
  | succ f ih =>
    intro st x hp
    unfold recursively_strip_invalid
    dsimp only
    split
    · exact pres_seenSetSt (pres_seenSetSt hp _ _) _ _
    · exact pres_handle_unpickleable ih (seenSetSt st x none) x (pres_seenSetSt hp _ _)

theorem attrsOf_mem_memberIds {nd : Node} {p : String × Nat} (h : p ∈ attrsOf nd) :
    p.2 ∈ nd.memberIds := by
  cases nd
  case ns a o cp cs it => exact List.mem_map_of_mem _ h
  all_goals exact absurd h (List.not_mem_nil p)

theorem wf_member_lt {h0 : Heap} {n0 : Nat} (hwf : WfOrig h0 n0) {x : Nat} (hx : x < n0)
    {j : Nat} (hj : j ∈ (h0 x).memberIds) : j < n0 := by
  have hall := (hwf x hx).1
  rw [List.all_eq_true] at hall
  exact of_decide_eq_true (hall j hj)

theorem pres_fillAttrsLoop {h0 : Heap} {n0 : Nat} {c : Nat} (hc : n0 ≤ c) :
    ∀ (l : List (String × Nat)) (st : St), Pres h0 n0 st →
      Pres h0 n0 (fillAttrsLoop c l st).2 := by
  intro l
  induction l with
  | nil => intro st hp; exact hp
  | cons p rest ih =>
    intro st hp
    unfold fillAttrsLoop
    split
    · next t heq =>
      split
      · next e st2 heq2 =>
        have h2 := pres_resolveSeen hp t
        rw [heq2] at h2
        exact h2
      · next r st2 heq2 =>
        have h2 := pres_resolveSeen hp t
        rw [heq2] at h2
        exact ih _ (pres_setAttr h2 hc _ _)
    · exact ih _ hp

theorem fillAttrsLoop_nofut {c : Nat} :
    ∀ (l : List (String × Nat)) (st : St),
      (∀ p ∈ l, isFutureB (st.heap p.2) = false) →
      fillAttrsLoop c l st = (.ok (), st) := by
  intro l
  induction l with
  | nil => intro st _; rfl
  | cons p rest ih =>
    intro st hnf
    unfold fillAttrsLoop
    split
    · next t heq =>
      have := hnf p (List.mem_cons_self p rest)
      rw [heq] at this
      exact absurd this (by simp [isFutureB])
    · exact ih st (fun q hq => hnf q (List.mem_cons_of_mem p hq))

theorem pres_fillRecurseLoop {h0 : Heap} {n0 : Nat}
    {recurF : St → Nat → Except PErr Unit × St} (hrf : PresStepU h0 n0 recurF) :
    ∀ (l : List Nat) (st : St), Pres h0 n0 st →
      Pres h0 n0 (fillRecurseLoop recurF l st).2 := by
  intro l
  induction l with
  | nil => intro st hp; exact hp
  | cons v rest ih =>
    intro st hp
    unfold fillRecurseLoop
    split
    · exact ih st hp
    · split
      · next e st2 heq =>
        have h2 := hrf st v hp
        rw [heq] at h2
        exact h2
      · next u st2 heq =>
        have h2 := hrf st v hp
        rw [heq] at h2
        exact ih _ h2

theorem pres_fill_in_attributes {h0 : Heap} {n0 : Nat} (hwf : WfOrig h0 n0)
    {recurF : St → Nat → Except PErr Unit × St} (hrf : PresStepU h0 n0 recurF)
    (st : St) (x : Nat) (hp : Pres h0 n0 st) :
    Pres h0 n0 (fill_in_attributes recurF st x).2 := by
  unfold fill_in_attributes
  by_cases hx : x < n0
  · have hnf : ∀ p ∈ attrsOf (st.heap x), isFutureB (st.heap p.2) = false := by
      intro p hpm
      rw [hp.1 x hx] at hpm
      have hlt : p.2 < n0 := wf_member_lt hwf hx (attrsOf_mem_memberIds hpm)
      rw [hp.1 p.2 hlt]
      exact (hwf p.2 hlt).2
    rw [fillAttrsLoop_nofut _ _ hnf]
    exact pres_fillRecurseLoop hrf _ _ hp
  · have hge : n0 ≤ x := Nat.le_of_not_lt hx
    have hl := pres_fillAttrsLoop hge (attrsOf (st.heap x)) st hp
    split
    · next heq => rw [heq] at hl; exact hl
    · next heq => rw [heq] at hl; exact pres_fillRecurseLoop hrf _ _ hl

theorem pres_fillListLoop {h0 : Heap} {n0 : Nat} {c : Nat} (hc : n0 ≤ c) :
    ∀ (k idx : Nat) (st : St), Pres h0 n0 st →
      Pres h0 n0 (fillListLoop c k idx st).2 := by
  intro k
  induction k with
  | zero => intro idx st hp; exact hp
  | succ k ih =>
    intro idx st hp
    unfold fillListLoop
    split
    · split
      · exact hp
      · split
        · next t heq =>
          split
          · next e st2 heq2 =>
            have h2 := pres_resolveSeen hp t
            rw [heq2] at h2
            exact h2
          · next r st2 heq2 =>
            have h2 := pres_resolveSeen hp t
            rw [heq2] at h2
            exact ih _ _ (pres_setElem h2 hc _ _)
        · exact ih _ _ hp
    · exact hp

theorem fillListLoop_nofut {c : Nat} {st : St} {es : List Nat} {o : Option PErr}
    (hes : st.heap c = .pylist es o)
    (hnf : ∀ v ∈ es, isFutureB (st.heap v) = false) :
    ∀ (k idx : Nat), fillListLoop c k idx st = (.ok (), st) := by
  intro k
  induction k with
  | zero => intro idx; rfl
  | succ k ih =>
    intro idx
    unfold fillListLoop
    rw [hes]
    dsimp only
    match hidx : es[idx]? with
    | none => rfl
    | some v =>
      dsimp only
      have hv : v ∈ es := by
        obtain ⟨hlt, hget⟩ := List.getElem?_eq_some.mp hidx
        exact hget ▸ List.getElem_mem hlt
      have := hnf v hv
      match hn : st.heap v with
      | .future t => rw [hn] at this; simp [isFutureB] at this
      | .atom p cb r => exact ih (idx + 1)
      | .intObj m => exact ih (idx + 1)
      | .strObj sx => exact ih (idx + 1)
      | .pynone => exact ih (idx + 1)
      | .ns a ox cp cs it => exact ih (idx + 1)
      | .pylist es2 o2 => exact ih (idx + 1)
      | .pydict es2 => exact ih (idx + 1)
      | .lost r => exact ih (idx + 1)

theorem pres_fillDictLoop {h0 : Heap} {n0 : Nat} {c : Nat} (hc : n0 ≤ c) (size0 : Nat) :
    ∀ (k idx : Nat) (st : St), Pres h0 n0 st →
      Pres h0 n0 (fillDictLoop c size0 k idx st).2 := by
  intro k
  induction k with
  | zero => intro idx st hp; exact hp
  | succ k ih =>
    intro idx st hp
    unfold fillDictLoop
    split
    · split
      · exact hp
      · split
        · exact hp
        · split
          · next t heq =>
            split
            · next e st2 heq2 =>
              have h2 := pres_resolveSeen hp t
              rw [heq2] at h2
              exact h2
            · next r st2 heq2 =>
              have h2 := pres_resolveSeen hp t
              rw [heq2] at h2
              exact ih _ _ (pres_dictAssignInt h2 hc _ _)
          · exact ih _ _ hp
    · exact hp

theorem fillDictLoop_nofut {c : Nat} {st : St} {es : List (Nat × Nat)}
    (hes : st.heap c = .pydict es)
    (hnf : ∀ p ∈ es, isFutureB (st.heap p.1) = false) :
    ∀ (k idx : Nat), fillDictLoop c es.length k idx st = (.ok (), st) := by
  intro k
  induction k with
  | zero => intro idx; rfl
  | succ k ih =>
    intro idx
    unfold fillDictLoop
    rw [hes]
    dsimp only
    rw [if_neg (by omega)]
    match hidx : es[idx]? with
    | none => rfl
    | some p =>
      dsimp only
      have hv : p ∈ es := by
        obtain ⟨hlt, hget⟩ := List.getElem?_eq_some.mp hidx
        exact hget ▸ List.getElem_mem hlt
      have hnotf := hnf p hv
      match hn : st.heap p.1 with
      | .future t => rw [hn] at hnotf; simp [isFutureB] at hnotf
      | .atom pk cb r => exact ih (idx + 1)
      | .intObj m => exact ih (idx + 1)
      | .strObj sx => exact ih (idx + 1)
      | .pynone => exact ih (idx + 1)
      | .ns a ox cp cs it => exact ih (idx + 1)
      | .pylist es2 o2 => exact ih (idx + 1)
      | .pydict es2 => exact ih (idx + 1)
      | .lost r => exact ih (idx + 1)

theorem pres_fill_in_members {h0 : Heap} {n0 : Nat} (hwf : WfOrig h0 n0)
    {recurF : St → Nat → Except PErr Unit × St} (hrf : PresStepU h0 n0 recurF)
    (st : St) (x : Nat) (hp : Pres h0 n0 st) :
    Pres h0 n0 (fill_in_members recurF st x).2 := by
  unfold fill_in_members
  by_cases hx : x < n0
  · have hax : st.heap x = h0 x := hp.1 x hx
    split
    · next es o heq =>
      have hnf : ∀ v ∈ es, isFutureB (st.heap v) = false := by
        intro v hv
        have hvm : v ∈ (h0 x).memberIds := by
          rw [← hax, heq]
          exact hv
        have hlt : v < n0 := wf_member_lt hwf hx hvm
        rw [hp.1 v hlt]
        exact (hwf v hlt).2
      rw [fillListLoop_nofut heq hnf]
      dsimp only
      split
      · exact pres_fillRecurseLoop hrf _ _ hp
      · exact hp
    · next es heq =>
      have hnf : ∀ p ∈ es, isFutureB (st.heap p.1) = false := by
        intro p hv
        have hvm : p.1 ∈ (h0 x).memberIds := by
          rw [← hax, heq]
          show p.1 ∈ es.map (fun q => q.1) ++ es.map (fun q => q.2)
          exact List.mem_append_left _ (List.mem_map_of_mem _ hv)
        have hlt : p.1 < n0 := wf_member_lt hwf hx hvm
        rw [hp.1 p.1 hlt]
        exact (hwf p.1 hlt).2
      rw [fillDictLoop_nofut heq hnf]
      dsimp only
      split
      · exact pres_fillRecurseLoop hrf _ _ hp
      · exact hp
    · exact hp
  · have hge : n0 ≤ x := Nat.le_of_not_lt hx
    split
    · next es o heq =>
      have hl := pres_fillListLoop hge (es.length + 1) 0 st hp
      split
      · next heq2 => rw [heq2] at hl; exact hl
      · next heq2 =>
        rw [heq2] at hl
        split
        · exact pres_fillRecurseLoop hrf _ _ hl
        · exact hl
    · next es heq =>
      have hl := pres_fillDictLoop hge es.length (es.length + 2) 0 st hp
      split
      · next heq2 => rw [heq2] at hl; exact hl
      · next heq2 =>
        rw [heq2] at hl
        split
        · exact pres_fillRecurseLoop hrf _ _ hl
        · exact hl
    · exact hp

theorem pres_fill {h0 : Heap} {n0 : Nat} (hwf : WfOrig h0 n0) (f : Nat) :
    PresStepU h0 n0 (fill_in_future_objects f) := by
  induction f with
  | zero => intro st x hp; exact hp
  | succ f ih =>
    intro st x hp
    unfold fill_in_future_objects
    dsimp only
    have hp1 : Pres h0 n0 { st with seenFill := x :: st.seenFill } := ⟨hp.1, hp.2⟩
    split
    · exact hp1
    · split
      · exact pres_fill_in_attributes hwf ih _ x hp1
      · exact pres_fill_in_members hwf ih _ x hp1
      · exact pres_fill_in_members hwf ih _ x hp1
      · exact hp1

theorem pres_serializable_copy {h : Heap} {n : Nat} (hwf : WfOrig h n) (item : Nat) :
    Pres h n (serializable_copy h n item).2 := by
  have hp0 : Pres h n ⟨h, n, [(item, none)], []⟩ := ⟨fun i _ => rfl, Nat.le_refl n⟩
  unfold serializable_copy
  dsimp only
  split
  · next e st1 heq =>
    have h1 := pres_pyCopy hp0 item
    rw [heq] at h1
    exact pres_alloc h1 _
  · next c st1 heq =>
    have h1 := pres_pyCopy hp0 item
    rw [heq] at h1
    have h2 := pres_strip (st1.next + 1) st1 c h1
    split
    · next e st2 heq2 => rw [heq2] at h2; exact h2
    · next pending st2 heq2 =>
      rw [heq2] at h2
      have h3 := pres_seenSetSt h2 item (some pending)
      have h4 := pres_fill hwf (((seenSetSt st2 item (some pending)).next) + 1)
        (seenSetSt st2 item (some pending)) pending h3
      split
      · next e st4 heq3 => rw [heq3] at h4; exact h4
      · next u st4 heq3 => rw [heq3] at h4; exact h4

theorem lookup_map_some (m : List (Nat × Nat)) (base : List (Nat × Option Nat)) (v : Nat) :
    (m.map (fun p => (p.1, some p.2)) ++ base).lookup v
      = match m.lookup v with
        | some l => some (some l)
        | none => base.lookup v := by
  induction m with
  | nil => rfl
  | cons p rest ih =>
    simp only [List.map_cons, List.cons_append, List.lookup]
    cases hv : v == p.1 with
    | true => rfl
    | false => exact ih

theorem lookup_none_of_not_mem {β : Type} {v : Nat} {m : List (Nat × β)}
    (h : v ∉ m.map (fun p => p.1)) : m.lookup v = none := by
  induction m with
  | nil => rfl
  | cons p rest ih =>
    simp only [List.map_cons, List.mem_cons, not_or] at h
    simp only [List.lookup]
    cases hv : v == p.1 with
    | true => exact absurd (eq_of_beq hv) h.1
    | false => exact ih h.2

theorem mem_of_lookup_some {β : Type} {v : Nat} {l : β} {m : List (Nat × β)}
    (h : m.lookup v = some l) : v ∈ m.map (fun p => p.1) := by
  by_contra hc
  rw [lookup_none_of_not_mem hc] at h
  exact absurd h (by simp)

theorem mapNoMatch {k : String} (r : Nat) :
    ∀ (l : List (String × Nat)), (∀ q ∈ l, (q.1 == k) = false) →
      l.map (fun p => if p.1 == k then (p.1, r) else p) = l := by
  intro l
  induction l with
  | nil => intro _; rfl
  | cons q rest ih =>
    intro hq
    have h1 := hq q (List.mem_cons_self q rest)
    simp only [List.map_cons, h1, Bool.false_eq_true, if_false]
    rw [ih (fun x hx => hq x (List.mem_cons_of_mem q hx))]

theorem dictSetStr_mid {done rest : List (String × Nat)} {k : String} {v : Nat} (r : Nat)
    (h1 : ∀ q ∈ done, (q.1 == k) = false) (h2 : ∀ q ∈ rest, (q.1 == k) = false) :
    dictSetStr (done ++ (k, v) :: rest) k r = done ++ (k, r) :: rest := by
  unfold dictSetStr
  have hany : ((done ++ (k, v) :: rest).any fun p => p.1 == k) = true := by
    rw [List.any_append]
    apply Bool.or_eq_true_iff.mpr
    right
    rw [List.any_cons]
    apply Bool.or_eq_true_iff.mpr
    left
    exact beq_self_eq_true k
  rw [if_pos hany, List.map_append, List.map_cons]
  rw [mapNoMatch r done h1, mapNoMatch r rest h2]
  show done ++ (if (k == k) = true then (k, r) else (k, v)) :: rest = _
  rw [if_pos (beq_self_eq_true k)]

theorem is_endpoint_atom {nd : Node} (h : isAtomB nd = true) : is_endpoint nd = true := by
  cases nd <;> first | rfl | simp [isAtomB] at h

theorem dumps_atom {h : Heap} {f : Nat} {v : Nat} {vis : List Nat}
    (ha : isAtomB (h v) = true) (hv : vis.contains v = false) :
    dumps h (f + 1) vis v
      = match pickOf h v with
        | some e => .error e
        | none => .ok (v :: vis) := by
  unfold dumps
  rw [hv]
  cases hnode : h v <;> simp [isAtomB, hnode] at ha ⊢
  unfold pickOf
  rw [hnode]

theorem listSetEq_self (a : List Nat) : listSetEq a a = true := by
  unfold listSetEq
  rw [Bool.and_eq_true]
  constructor <;> (rw [List.all_eq_true]; intro x hx; exact List.elem_eq_true_of_mem hx)

theorem listSetEq_false_of {a b : List Nat} {x : Nat} (hx : x ∈ b) (hnx : x ∉ a) :
    listSetEq a b = false := by
  unfold listSetEq
  apply Bool.and_eq_false_iff.mpr
  right
  rw [List.all_eq_false]
  refine ⟨x, hx, ?_⟩
  intro hc
  exact absurd (List.mem_of_elem_eq_true hc) hnx

theorem hset_ne (hh : Heap) (c : Nat) (nd : Node) {i : Nat} (hne : i ≠ c) :
    hset hh c nd i = hh i := by
  unfold hset
  rw [if_neg hne]

theorem hset_eq (hh : Heap) (c : Nat) (nd : Node) : hset hh c nd c = nd := by
  unfold hset
  rw [if_pos rfl]

theorem lookup_some_mem {v l : Nat} {m : List (Nat × Nat)} (h : m.lookup v = some l) :
    (v, l) ∈ m := by
  induction m with
  | nil => exact absurd h (by simp [List.lookup])
  | cons p rest ih =>
    rw [List.lookup] at h
    cases hv : v == p.1 with
    | true =>
      rw [hv] at h
      simp only [Option.some.injEq] at h
      have hveq := eq_of_beq hv
      rw [hveq, ← h]
      exact List.mem_cons_self p rest
    | false =>
      rw [hv] at h
      exact List.mem_cons_of_mem p (ih h)

theorem mem_keys_lookup_isSome {β : Type} {v : Nat} {m : List (Nat × β)}
    (h : v ∈ m.map (fun p => p.1)) : ∃ l, m.lookup v = some l := by
  induction m with
  | nil => exact absurd h (List.not_mem_nil v)
  | cons p rest ih =>
    rw [List.lookup]
    cases hv : v == p.1 with
    | true => exact ⟨p.2, rfl⟩
    | false =>
      simp only [List.map_cons, List.mem_cons] at h
      rcases h with he | hm
      · exact absurd (beq_iff_eq.mpr he) (by rw [hv]; simp)
      · exact ih hm

theorem not_mem_of_lookup_none {β : Type} {v : Nat} {m : List (Nat × β)}
    (h : m.lookup v = none) : v ∉ m.map (fun p => p.1) := by
  intro hc
  obtain ⟨l, hl⟩ := mem_keys_lookup_isSome hc
  rw [h] at hl
  exact absurd hl (by simp)

theorem seenMapNoMatch {v : Nat} (val : Option Nat) :
    ∀ (l : List (Nat × Option Nat)), (∀ q ∈ l, (q.1 == v) = false) →
      l.map (fun p => if p.1 == v then (p.1, val) else p) = l := by
  intro l
  induction l with
  | nil => intro _; rfl
  | cons q rest ih =>
    intro hq
    have h1 := hq q (List.mem_cons_self q rest)
    simp only [List.map_cons, h1, Bool.false_eq_true, if_false]
    rw [ih (fun x hx => hq x (List.mem_cons_of_mem q hx))]

theorem dumpsList_atoms_ok {h : Heap} {f : Nat} :
    ∀ (vs vis : List Nat),
      (∀ v ∈ vs, isAtomB (h v) = true ∧ pickOf h v = none) →
      ∃ vis2, dumpsList (dumps h (f + 1)) vis vs = .ok vis2 := by
  intro vs
  induction vs with
  | nil => intro vis _; exact ⟨vis, rfl⟩
  | cons v rest ih =>
    intro vis hv
    have hva := hv v (List.mem_cons_self v rest)
    have htail : ∀ w ∈ rest, isAtomB (h w) = true ∧ pickOf h w = none :=
      fun w hw => hv w (List.mem_cons_of_mem v hw)
    unfold dumpsList
    cases hc : vis.contains v with
    | true =>
      have hd : dumps h (f + 1) vis v = .ok vis := by
        unfold dumps
        rw [hc]
        rfl
      rw [hd]
      exact ih vis htail
    | false =>
      rw [dumps_atom hva.1 hc, hva.2]
      exact ih (v :: vis) htail

theorem dumpsList_atoms_err {h : Heap} {f : Nat} :
    ∀ (vs vis : List Nat),
      (∀ v ∈ vs, isAtomB (h v) = true) →
      (∀ v ∈ vis, pickOf h v = none) →
      (∃ v ∈ vs, pickOf h v ≠ none) →
      ∃ e, dumpsList (dumps h (f + 1)) vis vs = .error e := by
  intro vs
  induction vs with
  | nil =>
    intro vis _ _ hbad
    obtain ⟨v, hv, _⟩ := hbad
    exact absurd hv (List.not_mem_nil v)
  | cons v rest ih =>
    intro vis hat hvis hbad
    have htail : ∀ w ∈ rest, isAtomB (h w) = true :=
      fun w hw => hat w (List.mem_cons_of_mem v hw)
    unfold dumpsList
    cases hp : pickOf h v with
    | some e =>
      have hcf : vis.contains v = false := by
        cases hcc : vis.contains v with
        | false => rfl
        | true =>
          have hvv := hvis v (List.mem_of_elem_eq_true hcc)
          rw [hp] at hvv
          exact absurd hvv (by simp)
      rw [dumps_atom (hat v (List.mem_cons_self v rest)) hcf, hp]
      exact ⟨e, rfl⟩
    | none =>
      have hbad2 : ∃ w ∈ rest, pickOf h w ≠ none := by
        obtain ⟨w, hw, hwp⟩ := hbad
        rcases List.mem_cons.mp hw with he | hm
        · rw [he, hp] at hwp
          exact absurd rfl hwp
        · exact ⟨w, hm, hwp⟩
      cases hc : vis.contains v with
      | true =>
        have hd : dumps h (f + 1) vis v = .ok vis := by
          unfold dumps
          rw [hc]
          rfl
        rw [hd]
        exact ih vis htail hvis hbad2
      | false =>
        rw [dumps_atom (hat v (List.mem_cons_self v rest)) hc, hp]
        refine ih (v :: vis) htail ?_ hbad2
        intro w hw
        rcases List.mem_cons.mp hw with he | hm
        · rw [he]
          exact hp
        · exact hvis w hm

theorem dumps_atom_nil {h : Heap} {f : Nat} {v : Nat} (ha : isAtomB (h v) = true) :
    dumps h (f + 1) [] v
      = match pickOf h v with
        | some e => .error e
        | none => .ok [v] :=
  dumps_atom ha rfl

theorem handle_member_atom_ok {recur : St → Nat → WRes} {st : St} {v : Nat}
    (hatom : isAtomB (st.heap v) = true) (hpick : pickOf st.heap v = none) :
    handle_member recur st v = (.ok v, st) := by
  unfold handle_member
  rw [dumps_atom_nil hatom, hpick]

theorem handle_member_atom_typeErr_hit {recur : St → Nat → WRes} {st : St} {v l : Nat}
    (hatom : isAtomB (st.heap v) = true) (hpick : pickOf st.heap v = some .typeErr)
    (hlk : st.seen.lookup v = some (some l)) :
    handle_member recur st v = (.ok l, st) := by
  unfold handle_member
  rw [dumps_atom_nil hatom, hpick, hlk]

theorem handle_member_atom_pickling {recur : St → Nat → WRes} {st : St} {v : Nat}
    (hatom : isAtomB (st.heap v) = true) (hpick : pickOf st.heap v = some .picklingErr) :
    handle_member recur st v = (.ok st.next, (alloc st (.lost (reprOf (st.heap v)))).2) := by
  unfold handle_member
  rw [dumps_atom_nil hatom, hpick]
  rfl

theorem handle_member_atom_typeErr_miss {g : Nat} {st : St} {v : Nat}
    (hatom : isAtomB (st.heap v) = true) (hpick : pickOf st.heap v = some .typeErr)
    (hlk : st.seen.lookup v = none)
    (hany : st.seen.any (fun p => p.1 == v) = false) :
    handle_member (recursively_strip_invalid (g + 1)) st v
      = (.ok st.next,
         { heap := hset st.heap st.next (.lost (reprOf (st.heap v))),
           next := st.next + 1,
           seen := (v, some st.next) :: st.seen,
           seenFill := st.seenFill }) := by
  unfold handle_member
  rw [dumps_atom_nil hatom, hpick, hlk]
  unfold recursively_strip_invalid
  dsimp only
  have hseen1 : seenSetSt st v none = { st with seen := (v, none) :: st.seen } := by
    unfold seenSetSt seenSet
    rw [hany]
    rfl
  rw [hseen1]
  have hpk : is_pickleable { st with seen := (v, none) :: st.seen } v = false := by
    unfold is_pickleable
    rw [show ({ st with seen := (v, none) :: st.seen } : St).heap = st.heap from rfl]
    rw [dumps_atom_nil hatom, hpick]
  rw [hpk]
  simp only [Bool.false_eq_true, if_false]
  unfold handle_unpickleable
  rw [if_pos (is_endpoint_atom hatom)]
  dsimp only [alloc]
  unfold seenSetSt seenSet
  have hany2 : (((v, none) :: st.seen).any fun p => p.1 == v) = true := by
    rw [List.any_cons]
    apply Bool.or_eq_true_iff.mpr
    left
    exact beq_self_eq_true v
  rw [hany2]
  dsimp only [List.map_cons]
  rw [if_pos (beq_self_eq_true v)]
  rw [List.any_eq_false] at hany
  rw [seenMapNoMatch (some st.next) st.seen
    (fun q hq => Bool.eq_false_iff.mpr (hany q hq))]
  rfl

theorem memberSim_cons (h : Heap) (kk : String) (v : Nat) (rest : List (String × Nat))
    (m : List (Nat × Nat)) (nu : Nat) :
    memberSim h ((kk, v) :: rest) m nu
      = match pickOf h v with
        | none => ((kk, v) :: (memberSim h rest m nu).1, (memberSim h rest m nu).2)
        | some .typeErr =>
          match m.lookup v with
          | some l => ((kk, l) :: (memberSim h rest m nu).1, (memberSim h rest m nu).2)
          | none => ((kk, nu) :: (memberSim h rest ((v, nu) :: m) (nu + 1)).1,
                     (memberSim h rest ((v, nu) :: m) (nu + 1)).2)
        | some _ => ((kk, nu) :: (memberSim h rest m (nu + 1)).1,
                     (memberSim h rest m (nu + 1)).2) := rfl

theorem setAttr_on_copy {st : St} {n : Nat} {done rest2 : List (String × Nat)} {kk : String}
    {v : Nat} {rootOwn : Option PErr} (r : Nat)
    (hheap : st.heap (n + 1) = .ns (done ++ (kk, v) :: rest2) rootOwn true false false)
    (h1 : ∀ q ∈ done, (q.1 == kk) = false)
    (h2 : ∀ q ∈ rest2, (q.1 == kk) = false) :
    setAttr st (n + 1) kk r
      = { st with heap := (hset st.heap (n + 1)
            (.ns (done ++ (kk, r) :: rest2) rootOwn true false false)) } := by
  unfold setAttr
  rw [hheap]
  dsimp only
  rw [dictSetStr_mid r h1 h2]

theorem nsLoop_sim {h : Heap} {n : Nat} {rootOwn : Option PErr} (g : Nat) :
    ∀ (rest done : List (String × Nat)) (m : List (Nat × Nat)) (nu : Nat) (st : St) (k : Nat),
      rest.length < k →
      (∀ p ∈ rest, p.2 ≠ 0 ∧ p.2 < n ∧ isAtomB (h p.2) = true ∧
        (pickOf h p.2 = none ∨ pickOf h p.2 = some .typeErr ∨
          pickOf h p.2 = some .picklingErr)) →
      (∀ q ∈ done, ∀ p ∈ rest, (q.1 == p.1) = false) →
      (rest.map (fun p => p.1)).Nodup →
      SimInv h n rootOwn done rest m nu st →
      ∃ st2, nsLoop (recursively_strip_invalid (g + 1)) (n + 1) k done.length st
          = (.ok (), st2)
        ∧ SimInv h n rootOwn (done ++ (memberSim h rest m nu).1) []
            (memberSim h rest m nu).2.1 (memberSim h rest m nu).2.2 st2 := by
  intro rest
  induction rest with
  | nil =>
    intro done m nu st k hk hvals hdisj hnodup hinv
    obtain ⟨hnext, hfloor, hseen, hheap, hagree, hlost, hmty, hdone⟩ := hinv
    refine ⟨st, ?_, ?_⟩
    · cases k with
      | zero => rfl
      | succ k2 =>
        unfold nsLoop
        have hsc : (attrsOf (st.heap (n + 1)))[done.length]? = none := by
          rw [hheap]
          show (done ++ ([] : List (String × Nat)))[done.length]? = none
          rw [List.append_nil]
          exact List.getElem?_eq_none (Nat.le_refl _)
        rw [hsc]
    · show SimInv h n rootOwn (done ++ []) [] m nu st
      rw [List.append_nil]
      exact ⟨hnext, hfloor, hseen, hheap, hagree, hlost, hmty, hdone⟩
  | cons hd rest2 ih =>
    intro done m nu st k hk hvals hdisj hnodup hinv
    obtain ⟨kk, v⟩ := hd
    obtain ⟨hnext, hfloor, hseen, hheap, hagree, hlost, hmty, hdone⟩ := hinv
    obtain ⟨hv0, hvn, hvatom, hvpick⟩ := hvals (kk, v) (List.mem_cons_self _ _)
    have hvalsTail : ∀ p ∈ rest2, p.2 ≠ 0 ∧ p.2 < n ∧ isAtomB (h p.2) = true ∧
        (pickOf h p.2 = none ∨ pickOf h p.2 = some .typeErr ∨
          pickOf h p.2 = some .picklingErr) :=
      fun p hp => hvals p (List.mem_cons_of_mem _ hp)
    rw [List.map_cons] at hnodup
    have hnd := List.nodup_cons.mp hnodup
    have hk1 : ∀ q ∈ done, (q.1 == kk) = false :=
      fun q hq => hdisj q hq (kk, v) (List.mem_cons_self _ _)
    have hk2 : ∀ q ∈ rest2, (q.1 == kk) = false := by
      intro q hq
      apply beq_eq_false_iff_ne.mpr
      intro he
      exact hnd.1 (he ▸ List.mem_map_of_mem (fun p => p.1) hq)
    have hdisjTail : ∀ (r : Nat), ∀ q ∈ done ++ [(kk, r)], ∀ p ∈ rest2, (q.1 == p.1) = false := by
      intro r q hq p hp
      rcases List.mem_append.mp hq with hq1 | hq2
      · exact hdisj q hq1 p (List.mem_cons_of_mem _ hp)
      · have : q = (kk, r) := List.mem_singleton.mp hq2
        rw [this]
        apply beq_eq_false_iff_ne.mpr
        intro he
        exact hnd.1 (he ▸ List.mem_map_of_mem (fun x => x.1) hp)
    cases k with
    | zero => omega
    | succ k2 =>
    unfold nsLoop
    have hscrut : (attrsOf (st.heap (n + 1)))[done.length]? = some (kk, v) := by
      rw [hheap]
      show (done ++ (kk, v) :: rest2)[done.length]? = some (kk, v)
      rw [List.getElem?_append_right (Nat.le_refl _)]
      simp
    rw [hscrut]
    dsimp only
    have hatomst : isAtomB (st.heap v) = true := by
      rw [hagree v hvn]
      exact hvatom
    have hpickst : pickOf st.heap v = pickOf h v := by
      unfold pickOf
      rw [hagree v hvn]
    have hlen : ∀ (r : Nat), (done ++ [(kk, r)]).length = done.length + 1 := by
      intro r
      rw [List.length_append]
      rfl
    rcases hvpick with hp | hp | hp
    · -- pickleable member: kept unchanged
      rw [handle_member_atom_ok hatomst (by rw [hpickst]; exact hp)]
      dsimp only
      rw [setAttr_on_copy v hheap hk1 hk2]
      have hinvNew : SimInv h n rootOwn (done ++ [(kk, v)]) rest2 m nu
          { st with heap := (hset st.heap (n + 1)
              (.ns (done ++ (kk, v) :: rest2) rootOwn true false false)) } := by
        refine ⟨hnext, hfloor, hseen, ?_, ?_, ?_, hmty, ?_⟩
        · show hset st.heap (n + 1) _ (n + 1) = _
          unfold hset
          rw [if_pos rfl, List.append_assoc]
          rfl
        · intro i hi
          show hset st.heap (n + 1) _ i = h i
          unfold hset
          rw [if_neg (by omega)]
          exact hagree i hi
        · intro p hpm
          obtain ⟨hl1, hl2, hl3⟩ := hlost p hpm
          refine ⟨?_, hl2, hl3⟩
          show isLostB (hset st.heap (n + 1) _ p.2) = true
          unfold hset
          rw [if_neg (by omega)]
          exact hl1
        · intro q hq
          rcases List.mem_append.mp hq with hq1 | hq2
          · rcases hdone q hq1 with ⟨ha1, ha2⟩ | ⟨hb1, hb2, hb3⟩
            · left
              refine ⟨?_, ha2⟩
              show isAtomB (hset st.heap (n + 1) _ q.2) = true
              unfold hset
              rw [if_neg (by omega)]
              exact ha1
            · right
              refine ⟨?_, hb2, hb3⟩
              show isLostB (hset st.heap (n + 1) _ q.2) = true
              unfold hset
              rw [if_neg (by omega)]
              exact hb1
          · have hqe : q = (kk, v) := List.mem_singleton.mp hq2
            rw [hqe]
            left
            constructor
            · show isAtomB (hset st.heap (n + 1) _ v) = true
              unfold hset
              rw [if_neg (by omega)]
              exact hatomst
            · exact hvn
      obtain ⟨st2, hrun, hinv2⟩ := ih (done ++ [(kk, v)]) m nu _ k2 (by
          simp only [List.length_cons] at hk
          omega) hvalsTail (hdisjTail v) hnd.2 hinvNew
      rw [hlen v] at hrun
      refine ⟨st2, hrun, ?_⟩
      have hms : memberSim h ((kk, v) :: rest2) m nu
          = ((kk, v) :: (memberSim h rest2 m nu).1, (memberSim h rest2 m nu).2) := by
        rw [memberSim_cons, hp]
      rw [hms]
      rw [show done ++ (kk, v) :: (memberSim h rest2 m nu).1
          = (done ++ [(kk, v)]) ++ (memberSim h rest2 m nu).1 from by
        rw [List.append_assoc]; rfl]
      exact hinv2
    · -- TypeError member
      cases hlk : m.lookup v with
      | some l =>
        have hlkSeen : st.seen.lookup v = some (some l) := by
          rw [hseen, lookup_map_some, hlk]
        rw [handle_member_atom_typeErr_hit hatomst (by rw [hpickst]; exact hp) hlkSeen]
        dsimp only
        rw [setAttr_on_copy l hheap hk1 hk2]
        have hvl : isLostB (st.heap l) = true ∧ n + 2 ≤ l ∧ l < nu :=
          hlost (v, l) (lookup_some_mem hlk)
        have hinvNew : SimInv h n rootOwn (done ++ [(kk, l)]) rest2 m nu
            { st with heap := (hset st.heap (n + 1)
                (.ns (done ++ (kk, l) :: rest2) rootOwn true false false)) } := by
          refine ⟨hnext, hfloor, hseen, ?_, ?_, ?_, hmty, ?_⟩
          · show hset st.heap (n + 1) _ (n + 1) = _
            rw [hset_eq, List.append_assoc]
            rfl
          · intro i hi
            show hset st.heap (n + 1) _ i = h i
            rw [hset_ne _ _ _ (by omega)]
            exact hagree i hi
          · intro p hpm
            obtain ⟨hl1, hl2, hl3⟩ := hlost p hpm
            refine ⟨?_, hl2, hl3⟩
            show isLostB (hset st.heap (n + 1) _ p.2) = true
            rw [hset_ne _ _ _ (by omega)]
            exact hl1
          · intro q hq
            rcases List.mem_append.mp hq with hq1 | hq2
            · rcases hdone q hq1 with ⟨ha1, ha2⟩ | ⟨hb1, hb2, hb3⟩
              · left
                refine ⟨?_, ha2⟩
                show isAtomB (hset st.heap (n + 1) _ q.2) = true
                rw [hset_ne _ _ _ (by omega)]
                exact ha1
              · right
                refine ⟨?_, hb2, hb3⟩
                show isLostB (hset st.heap (n + 1) _ q.2) = true
                rw [hset_ne _ _ _ (by omega)]
                exact hb1
            · have hqe : q = (kk, l) := List.mem_singleton.mp hq2
              rw [hqe]
              right
              refine ⟨?_, hvl.2.1, hvl.2.2⟩
              show isLostB (hset st.heap (n + 1) _ l) = true
              rw [hset_ne _ _ _ (by omega)]
              exact hvl.1
        obtain ⟨st2, hrun, hinv2⟩ := ih (done ++ [(kk, l)]) m nu _ k2 (by
            simp only [List.length_cons] at hk
            omega) hvalsTail (hdisjTail l) hnd.2 hinvNew
        rw [hlen l] at hrun
        refine ⟨st2, hrun, ?_⟩
        have hms : memberSim h ((kk, v) :: rest2) m nu
            = ((kk, l) :: (memberSim h rest2 m nu).1, (memberSim h rest2 m nu).2) := by
          rw [memberSim_cons, hp, hlk]
        rw [hms]
        rw [show done ++ (kk, l) :: (memberSim h rest2 m nu).1
            = (done ++ [(kk, l)]) ++ (memberSim h rest2 m nu).1 from by
          rw [List.append_assoc]; rfl]
        exact hinv2
      | none =>
        have hlkSeen : st.seen.lookup v = none := by
          rw [hseen, lookup_map_some, hlk]
          apply lookup_none_of_not_mem
          intro hc
          simp only [List.map_cons, List.map_nil, List.mem_cons] at hc
          rcases hc with hc1 | hc1 | hc1
          · omega
          · exact hv0 hc1
          · exact absurd hc1 (List.not_mem_nil v)
        have hany : st.seen.any (fun p => p.1 == v) = false := by
          rw [List.any_eq_false]
          intro p hpmem
          rw [hseen] at hpmem
          intro hc
          have hpv : p.1 = v := eq_of_beq hc
          rcases List.mem_append.mp hpmem with hm1 | hm2
          · obtain ⟨q, hqm, hqe⟩ := List.mem_map.mp hm1
            have hnmem : v ∉ m.map (fun x => x.1) := not_mem_of_lookup_none hlk
            apply hnmem
            rw [← hpv, ← show q.1 = p.1 from by rw [← hqe]]
            exact List.mem_map_of_mem (fun x => x.1) hqm
          · simp only [List.mem_cons, List.mem_singleton] at hm2
            rcases hm2 with he | he | he
            · rw [he] at hpv
              simp only at hpv
              omega
            · rw [he] at hpv
              simp only at hpv
              exact hv0 hpv.symm
            · exact absurd he (List.not_mem_nil p)
        rw [handle_member_atom_typeErr_miss hatomst (by rw [hpickst]; exact hp) hlkSeen hany]
        dsimp only
        have hheapM : (hset st.heap st.next (Node.lost (reprOf (st.heap v)))) (n + 1)
            = Node.ns (done ++ (kk, v) :: rest2) rootOwn true false false := by
          rw [hset_ne _ _ _ (by omega)]
          exact hheap
        rw [setAttr_on_copy st.next hheapM hk1 hk2]
        have hinvNew : SimInv h n rootOwn (done ++ [(kk, st.next)]) rest2 ((v, st.next) :: m)
            (st.next + 1)
            { heap := (hset (hset st.heap st.next (Node.lost (reprOf (st.heap v)))) (n + 1)
                (.ns (done ++ (kk, st.next) :: rest2) rootOwn true false false)),
              next := st.next + 1,
              seen := (v, some st.next) :: st.seen,
              seenFill := st.seenFill } := by
          refine ⟨rfl, by omega, ?_, ?_, ?_, ?_, ?_, ?_⟩
          · show (v, some st.next) :: st.seen = _
            rw [hseen]
            rfl
          · show hset _ (n + 1) _ (n + 1) = _
            rw [hset_eq, List.append_assoc]
            rfl
          · intro i hi
            show hset _ (n + 1) _ i = h i
            rw [hset_ne _ _ _ (by omega), hset_ne _ _ _ (by omega)]
            exact hagree i hi
          · intro p hpm
            rcases List.mem_cons.mp hpm with he | hm1
            · rw [he]
              refine ⟨?_, by omega, by omega⟩
              show isLostB (hset _ (n + 1) _ st.next) = true
              rw [hset_ne _ _ _ (by omega), hset_eq]
              rfl
            · obtain ⟨hl1, hl2, hl3⟩ := hlost p hm1
              refine ⟨?_, hl2, by omega⟩
              show isLostB (hset _ (n + 1) _ p.2) = true
              rw [hset_ne _ _ _ (by omega), hset_ne _ _ _ (by omega)]
              exact hl1
          · intro p hpm
            rcases List.mem_cons.mp hpm with he | hm1
            · rw [he]
              exact ⟨hp, hvn⟩
            · exact hmty p hm1
          · intro q hq
            rcases List.mem_append.mp hq with hq1 | hq2
            · rcases hdone q hq1 with ⟨ha1, ha2⟩ | ⟨hb1, hb2, hb3⟩
              · left
                refine ⟨?_, ha2⟩
                show isAtomB (hset _ (n + 1) _ q.2) = true
                rw [hset_ne _ _ _ (by omega), hset_ne _ _ _ (by omega)]
                exact ha1
              · right
                refine ⟨?_, hb2, by omega⟩
                show isLostB (hset _ (n + 1) _ q.2) = true
                rw [hset_ne _ _ _ (by omega), hset_ne _ _ _ (by omega)]
                exact hb1
            · have hqe : q = (kk, st.next) := List.mem_singleton.mp hq2
              rw [hqe]
              right
              refine ⟨?_, by omega, by omega⟩
              show isLostB (hset _ (n + 1) _ st.next) = true
              rw [hset_ne _ _ _ (by omega), hset_eq]
              rfl
        obtain ⟨st2, hrun, hinv2⟩ := ih (done ++ [(kk, st.next)]) ((v, st.next) :: m)
          (st.next + 1) _ k2 (by
            simp only [List.length_cons] at hk
            omega) hvalsTail (hdisjTail st.next) hnd.2 hinvNew
        rw [hlen st.next] at hrun
        refine ⟨st2, hrun, ?_⟩
        have hms : memberSim h ((kk, v) :: rest2) m nu
            = ((kk, nu) :: (memberSim h rest2 ((v, nu) :: m) (nu + 1)).1,
               (memberSim h rest2 ((v, nu) :: m) (nu + 1)).2) := by
          rw [memberSim_cons, hp, hlk]
        rw [hms]
        rw [show done ++ (kk, nu) :: (memberSim h rest2 ((v, nu) :: m) (nu + 1)).1
            = (done ++ [(kk, nu)]) ++ (memberSim h rest2 ((v, nu) :: m) (nu + 1)).1 from by
          rw [List.append_assoc]; rfl]
        rw [← hnext]
        exact hinv2
    · -- PicklingError member: a fresh placeholder, the Seen Table untouched
      rw [handle_member_atom_pickling hatomst (by rw [hpickst]; exact hp)]
      dsimp only [alloc]
      have hheapM : (hset st.heap st.next (Node.lost (reprOf (st.heap v)))) (n + 1)
          = Node.ns (done ++ (kk, v) :: rest2) rootOwn true false false := by
        rw [hset_ne _ _ _ (by omega)]
        exact hheap
      rw [setAttr_on_copy st.next hheapM hk1 hk2]
      have hinvNew : SimInv h n rootOwn (done ++ [(kk, st.next)]) rest2 m (st.next + 1)
          { heap := (hset (hset st.heap st.next (Node.lost (reprOf (st.heap v)))) (n + 1)
              (.ns (done ++ (kk, st.next) :: rest2) rootOwn true false false)),
            next := st.next + 1,
            seen := st.seen,
            seenFill := st.seenFill } := by
        refine ⟨rfl, by omega, hseen, ?_, ?_, ?_, hmty, ?_⟩
        · show hset _ (n + 1) _ (n + 1) = _
          rw [hset_eq, List.append_assoc]
          rfl
        · intro i hi
          show hset _ (n + 1) _ i = h i
          rw [hset_ne _ _ _ (by omega), hset_ne _ _ _ (by omega)]
          exact hagree i hi
        · intro p hpm
          obtain ⟨hl1, hl2, hl3⟩ := hlost p hpm
          refine ⟨?_, hl2, by omega⟩
          show isLostB (hset _ (n + 1) _ p.2) = true
          rw [hset_ne _ _ _ (by omega), hset_ne _ _ _ (by omega)]
          exact hl1
        · intro q hq
          rcases List.mem_append.mp hq with hq1 | hq2
          · rcases hdone q hq1 with ⟨ha1, ha2⟩ | ⟨hb1, hb2, hb3⟩
            · left
              refine ⟨?_, ha2⟩
              show isAtomB (hset _ (n + 1) _ q.2) = true
              rw [hset_ne _ _ _ (by omega), hset_ne _ _ _ (by omega)]
              exact ha1
            · right
              refine ⟨?_, hb2, by omega⟩
              show isLostB (hset _ (n + 1) _ q.2) = true
              rw [hset_ne _ _ _ (by omega), hset_ne _ _ _ (by omega)]
              exact hb1
          · have hqe : q = (kk, st.next) := List.mem_singleton.mp hq2
            rw [hqe]
            right
            refine ⟨?_, by omega, by omega⟩
            show isLostB (hset _ (n + 1) _ st.next) = true
            rw [hset_ne _ _ _ (by omega), hset_eq]
            rfl
      obtain ⟨st2, hrun, hinv2⟩ := ih (done ++ [(kk, st.next)]) m (st.next + 1) _ k2 (by
          simp only [List.length_cons] at hk
          omega) hvalsTail (hdisjTail st.next) hnd.2 hinvNew
      rw [hlen st.next] at hrun
      refine ⟨st2, hrun, ?_⟩
      have hms : memberSim h ((kk, v) :: rest2) m nu
          = ((kk, nu) :: (memberSim h rest2 m (nu + 1)).1,
             (memberSim h rest2 m (nu + 1)).2) := by
        rw [memberSim_cons, hp]
      rw [hms]
      rw [show done ++ (kk, nu) :: (memberSim h rest2 m (nu + 1)).1
          = (done ++ [(kk, nu)]) ++ (memberSim h rest2 m (nu + 1)).1 from by
        rw [List.append_assoc]; rfl]
      rw [← hnext]
      exact hinv2

theorem isFutureB_atom {nd : Node} (h : isAtomB nd = true) : isFutureB nd = false := by
  cases nd <;> first | rfl | simp [isAtomB] at h

theorem isFutureB_lost {nd : Node} (h : isLostB nd = true) : isFutureB nd = false := by
  cases nd <;> first | rfl | simp [isLostB] at h

theorem fill_noop {f : Nat} {st : St} {v : Nat}
    (hv : is_endpoint (st.heap v) = true ∨ isLostB (st.heap v) = true) :
    fill_in_future_objects (f + 1) st v
      = (.ok (), { st with seenFill := v :: st.seenFill }) := by
  unfold fill_in_future_objects
  dsimp only
  rcases hv with he | hl
  · rw [he]
    rfl
  · cases hn : st.heap v <;> first | rfl | (rw [hn] at hl; simp [isLostB] at hl)

theorem fillRecurseLoop_noop {f : Nat} (hf : 1 ≤ f) :
    ∀ (l : List Nat) (st : St),
      (∀ v ∈ l, is_endpoint (st.heap v) = true ∨ isLostB (st.heap v) = true) →
      ∃ sf, fillRecurseLoop (fill_in_future_objects f) l st = (.ok (), sf) ∧
        sf.heap = st.heap ∧ sf.next = st.next ∧ sf.seen = st.seen := by
  obtain ⟨g, rfl⟩ : ∃ g, f = g + 1 := ⟨f - 1, by omega⟩
  intro l
  induction l with
  | nil => intro st _; exact ⟨st, rfl, rfl, rfl, rfl⟩
  | cons v rest ih =>
    intro st hv
    unfold fillRecurseLoop
    by_cases hc : st.seenFill.contains v = true
    · rw [if_pos hc]
      exact ih st (fun w hw => hv w (List.mem_cons_of_mem v hw))
    · rw [if_neg hc]
      rw [fill_noop (hv v (List.mem_cons_self v rest))]
      obtain ⟨sf, hrun, hh, hn2, hs⟩ := ih { st with seenFill := v :: st.seenFill }
        (fun w hw => hv w (List.mem_cons_of_mem v hw))
      exact ⟨sf, hrun, hh, hn2, hs⟩

theorem family_descent {h : Heap} {n : Nat} {rootOwn : Option PErr}
    {attrs : List (String × Nat)}
    (hroot : h 0 = .ns attrs rootOwn true false false)
    (hn : 0 < n)
    (hkeys : (attrs.map (fun p => p.1)).Nodup)
    (hvals : ∀ p ∈ attrs, p.2 ≠ 0 ∧ p.2 < n ∧ isAtomB (h p.2) = true ∧
      (pickOf h p.2 = none ∨ pickOf h p.2 = some .typeErr ∨
        pickOf h p.2 = some .picklingErr))
    (hdesc : (∃ e, rootOwn = some e) ∨ (∃ p ∈ attrs, pickOf h p.2 ≠ none)) :
    (listSetEq (attrs.map (fun p => p.2))
        ((memberSim h attrs [] (n + 2)).1.map (fun p => p.2)) = true ∧
      ∃ stf, serializable_copy h n 0 = (.ok (memberSim h attrs [] (n + 2)).2.2, stf) ∧
        isLostB (stf.heap (memberSim h attrs [] (n + 2)).2.2) = true) ∨
    (listSetEq (attrs.map (fun p => p.2))
        ((memberSim h attrs [] (n + 2)).1.map (fun p => p.2)) = false ∧
      ∃ stf, serializable_copy h n 0 = (.ok (n + 1), stf) ∧
        stf.heap (n + 1) = .ns (memberSim h attrs [] (n + 2)).1 rootOwn true false false) := by
  have hc0 : pyCopy ⟨h, n, [(0, none)], []⟩ 0 = (.ok n, ⟨hset h n (.ns attrs rootOwn true false false), n + 1, [(0, none)], []⟩) := by
    unfold pyCopy
    dsimp only
    rw [hroot]
    rfl
  have hseenmark : seenSetSt ⟨hset h n (.ns attrs rootOwn true false false), n + 1, [(0, none)], []⟩ n none = ⟨hset h n (.ns attrs rootOwn true false false), n + 1, [(n, none), (0, none)], []⟩ := by
    unfold seenSetSt seenSet
    dsimp only
    rw [if_neg (by
      simp only [List.any_cons, List.any_nil, Bool.or_false]
      intro hc
      have h0n := eq_of_beq hc
      omega)]
  have hdfail : ∃ e, dumps (hset h n (.ns attrs rootOwn true false false)) (n + 1 + 1) [] n = .error e := by
    unfold dumps
    rw [if_neg (fun hc => Bool.noConfusion hc)]
    rw [hset_eq]
    dsimp only
    rcases hdesc with ⟨e, he⟩ | ⟨p, hpmem, hpbad⟩
    · rw [he]
      exact ⟨e, rfl⟩
    · cases rootOwn with
      | some e => exact ⟨e, rfl⟩
      | none =>
        apply dumpsList_atoms_err
        · intro v hv
          obtain ⟨q, hqm, hqe⟩ := List.mem_map.mp hv
          obtain ⟨hq1, hq2, hq3, hq4⟩ := hvals q hqm
          rw [← hqe]
          rw [hset_ne h n (.ns attrs none true false false) (show q.2 ≠ n from by omega)]
          exact hq3
        · intro v hv
          rw [List.mem_singleton.mp hv]
          show pickOf (hset h n (.ns attrs none true false false)) n = none
          unfold pickOf
          rw [hset_eq]
        · refine ⟨p.2, List.mem_map_of_mem _ hpmem, ?_⟩
          have hlt := (hvals p hpmem).2.1
          rw [show pickOf (hset h n (.ns attrs none true false false)) p.2 = pickOf h p.2 from by
            unfold pickOf
            rw [hset_ne h n (.ns attrs none true false false) (show p.2 ≠ n from by omega)]]
          exact hpbad
  obtain ⟨eF, heF⟩ := hdfail
  have hpk : is_pickleable ⟨hset h n (.ns attrs rootOwn true false false), n + 1, [(n, none), (0, none)], []⟩ n = false := by
    unfold is_pickleable
    dsimp only
    rw [heF]
  have hc1 : pyCopy ⟨hset h n (.ns attrs rootOwn true false false), n + 1, [(n, none), (0, none)], []⟩ n = (.ok (n + 1), ⟨hset (hset h n (.ns attrs rootOwn true false false)) (n + 1) (.ns attrs rootOwn true false false), n + 1 + 1, [(n, none), (0, none)], []⟩) := by
    unfold pyCopy
    dsimp only
    rw [hset_eq]
    rfl
  have hinv0 : SimInv h n rootOwn [] attrs [] (n + 2) ⟨hset (hset h n (.ns attrs rootOwn true false false)) (n + 1) (.ns attrs rootOwn true false false), n + 1 + 1, [(n, none), (0, none)], []⟩ := by
    refine ⟨rfl, by omega, rfl, ?_, ?_, ?_, ?_, ?_⟩
    · show hset (hset h n (.ns attrs rootOwn true false false)) (n + 1) (.ns attrs rootOwn true false false) (n + 1) = _
      rw [hset_eq]
      rfl
    · intro i hi
      show hset (hset h n (.ns attrs rootOwn true false false)) (n + 1) (.ns attrs rootOwn true false false) i = h i
      rw [hset_ne _ _ _ (by omega), hset_ne _ _ _ (by omega)]
    · intro p hp
      exact absurd hp (List.not_mem_nil p)
    · intro p hp
      exact absurd hp (List.not_mem_nil p)
    · intro q hq
      exact absurd hq (List.not_mem_nil q)
  obtain ⟨st3, hrun, hinvF⟩ := nsLoop_sim n attrs [] [] (n + 2) ⟨hset (hset h n (.ns attrs rootOwn true false false)) (n + 1) (.ns attrs rootOwn true false false), n + 1 + 1, [(n, none), (0, none)], []⟩ (attrs.length + 1)
    (by omega) hvals (fun q hq => absurd hq (List.not_mem_nil q)) hkeys hinv0
  simp only [List.length_nil] at hrun
  obtain ⟨hF1, hF2, hF3, hF4, hF5, hF6, hF7, hF8⟩ := hinvF
  simp only [List.nil_append, List.append_nil] at hF4 hF8
  have hBheap : (⟨hset (hset h n (.ns attrs rootOwn true false false)) (n + 1) (.ns attrs rootOwn true false false), n + 1 + 1, [(n, none), (0, none)], []⟩ : St).heap (n + 1) = (.ns attrs rootOwn true false false) := by
    show hset (hset h n (.ns attrs rootOwn true false false)) (n + 1) (.ns attrs rootOwn true false false) (n + 1) = (.ns attrs rootOwn true false false)
    exact hset_eq _ _ _
  have hAheapn : (⟨hset h n (.ns attrs rootOwn true false false), n + 1, [(n, none), (0, none)], []⟩ : St).heap n = (.ns attrs rootOwn true false false) := by
    show hset h n (.ns attrs rootOwn true false false) n = (.ns attrs rootOwn true false false)
    exact hset_eq _ _ _
  have hprior : attrsOf ((⟨hset (hset h n (.ns attrs rootOwn true false false)) (n + 1) (.ns attrs rootOwn true false false), n + 1 + 1, [(n, none), (0, none)], []⟩ : St).heap (n + 1)) = attrs := by
    rw [hBheap]
    rfl
  have hF4a : attrsOf (st3.heap (n + 1)) = (memberSim h attrs [] (n + 2)).1 := by
    rw [hF4]
    rfl
  cases hEq : listSetEq (attrs.map (fun p => p.2))
      ((memberSim h attrs [] (n + 2)).1.map (fun p => p.2)) with
  | true =>
    have hns : handle_namespace_item (recursively_strip_invalid (n + 1)) ⟨hset (hset h n (.ns attrs rootOwn true false false)) (n + 1) (.ns attrs rootOwn true false false), n + 1 + 1, [(n, none), (0, none)], []⟩ (n + 1)
        = (.ok st3.next, (alloc st3 (.lost (reprOf (st3.heap (n + 1))))).2) := by
      unfold handle_namespace_item
      rw [hprior]
      rw [hrun]
      dsimp only
      rw [hF4a]
      rw [if_pos hEq]
    have hsc : handle_shallow_copy (recursively_strip_invalid (n + 1)) ⟨hset (hset h n (.ns attrs rootOwn true false false)) (n + 1) (.ns attrs rootOwn true false false), n + 1 + 1, [(n, none), (0, none)], []⟩ (n + 1)
        = (.ok st3.next,
           seenSetSt (alloc st3 (.lost (reprOf (st3.heap (n + 1))))).2 (n + 1)
             (some st3.next)) := by
      unfold handle_shallow_copy
      rw [hBheap]
      rw [if_pos (by rfl)]
      rw [hns]
    have hune : handle_unpickleable (recursively_strip_invalid (n + 1)) ⟨hset h n (.ns attrs rootOwn true false false), n + 1, [(n, none), (0, none)], []⟩ n
        = (.ok st3.next,
           seenSetSt (alloc st3 (.lost (reprOf (st3.heap (n + 1))))).2 (n + 1)
             (some st3.next)) := by
      unfold handle_unpickleable
      rw [if_neg (by rw [hAheapn]; exact fun hc => Bool.noConfusion hc)]
      unfold handle_non_endpoint
      rw [hc1]
      exact hsc
    have hstrip : recursively_strip_invalid (n + 1 + 1) ⟨hset h n (.ns attrs rootOwn true false false), n + 1, [(0, none)], []⟩ n
        = (.ok st3.next,
           seenSetSt (alloc st3 (.lost (reprOf (st3.heap (n + 1))))).2 (n + 1)
             (some st3.next)) := by
      unfold recursively_strip_invalid
      dsimp only
      rw [hseenmark, hpk]
      simp only [Bool.false_eq_true, if_false]
      exact hune
    refine Or.inl ⟨rfl, ?_⟩
    rw [← hF1]
    unfold serializable_copy
    dsimp only
    rw [hc0]
    dsimp only
    rw [hstrip]
    dsimp only
    have hlostheap : ∀ (sx : St), sx.heap = (alloc st3 (.lost (reprOf (st3.heap (n + 1))))).2.heap →
        isLostB (sx.heap st3.next) = true := by
      intro sx hsx
      rw [hsx]
      show isLostB (hset st3.heap st3.next _ st3.next) = true
      rw [hset_eq]
      rfl
    rw [fill_noop (Or.inr (by
      show isLostB ((seenSetSt (seenSetSt (alloc st3 (.lost (reprOf (st3.heap (n + 1))))).2 (n + 1)
        (some st3.next)) 0 (some st3.next)).heap st3.next) = true
      exact hlostheap _ rfl))]
    dsimp only
    refine ⟨_, rfl, ?_⟩
    exact hlostheap _ rfl
  | false =>
    have hns : handle_namespace_item (recursively_strip_invalid (n + 1)) ⟨hset (hset h n (.ns attrs rootOwn true false false)) (n + 1) (.ns attrs rootOwn true false false), n + 1 + 1, [(n, none), (0, none)], []⟩ (n + 1)
        = (.ok (n + 1), st3) := by
      unfold handle_namespace_item
      rw [hprior]
      rw [hrun]
      dsimp only
      rw [hF4a]
      rw [if_neg (by rw [hEq]; decide)]
    have hsc : handle_shallow_copy (recursively_strip_invalid (n + 1)) ⟨hset (hset h n (.ns attrs rootOwn true false false)) (n + 1) (.ns attrs rootOwn true false false), n + 1 + 1, [(n, none), (0, none)], []⟩ (n + 1)
        = (.ok (n + 1), seenSetSt st3 (n + 1) (some (n + 1))) := by
      unfold handle_shallow_copy
      rw [hBheap]
      rw [if_pos (by rfl)]
      rw [hns]
    have hune : handle_unpickleable (recursively_strip_invalid (n + 1)) ⟨hset h n (.ns attrs rootOwn true false false), n + 1, [(n, none), (0, none)], []⟩ n
        = (.ok (n + 1), seenSetSt st3 (n + 1) (some (n + 1))) := by
      unfold handle_unpickleable
      rw [if_neg (by rw [hAheapn]; exact fun hc => Bool.noConfusion hc)]
      unfold handle_non_endpoint
      rw [hc1]
      exact hsc
    have hstrip : recursively_strip_invalid (n + 1 + 1) ⟨hset h n (.ns attrs rootOwn true false false), n + 1, [(0, none)], []⟩ n
        = (.ok (n + 1), seenSetSt st3 (n + 1) (some (n + 1))) := by
      unfold recursively_strip_invalid
      dsimp only
      rw [hseenmark, hpk]
      simp only [Bool.false_eq_true, if_false]
      exact hune
    refine Or.inr ⟨rfl, ?_⟩
    unfold serializable_copy
    dsimp only
    rw [hc0]
    dsimp only
    rw [hstrip]
    dsimp only
    -- the fill pass over the kept namespace copy
    have hst4heap : (seenSetSt (seenSetSt st3 (n + 1) (some (n + 1))) 0 (some (n + 1))).heap
        = st3.heap := rfl
    have hfill : ∀ (st4 : St), st4.heap = st3.heap → st4.next = st3.next →
        ∃ sf, fill_in_future_objects (st4.next + 1) st4 (n + 1) = (.ok (), sf) ∧
          sf.heap = st3.heap := by
      intro st4 hh4 hn4
      unfold fill_in_future_objects
      dsimp only
      rw [show ({ st4 with seenFill := (n + 1) :: st4.seenFill } : St).heap (n + 1)
          = Node.ns (memberSim h attrs [] (n + 2)).1 rootOwn true false false from by
        show st4.heap (n + 1) = _
        rw [hh4, hF4]]
      rw [if_neg (fun hc => Bool.noConfusion hc)]
      unfold fill_in_attributes
      have hmarkheap : ({ st4 with seenFill := (n + 1) :: st4.seenFill } : St).heap = st3.heap := by
        show st4.heap = st3.heap
        exact hh4
      rw [show attrsOf (({ st4 with seenFill := (n + 1) :: st4.seenFill } : St).heap (n + 1))
          = (memberSim h attrs [] (n + 2)).1 from by rw [hmarkheap, hF4a]]
      rw [fillAttrsLoop_nofut _ _ (by
        intro p hpm
        rw [hmarkheap]
        rcases hF8 p hpm with ⟨ha1, _⟩ | ⟨hb1, _, _⟩
        · exact isFutureB_atom ha1
        · exact isFutureB_lost hb1)]
      dsimp only
      rw [show attrsOf (({ st4 with seenFill := (n + 1) :: st4.seenFill } : St).heap (n + 1))
          = (memberSim h attrs [] (n + 2)).1 from by rw [hmarkheap, hF4a]]
      obtain ⟨sf, hrun2, hsfh, _, _⟩ := @fillRecurseLoop_noop st4.next (by omega)
        ((memberSim h attrs [] (n + 2)).1.map (fun p => p.2))
        { st4 with seenFill := (n + 1) :: st4.seenFill }
        (by
          intro v hv
          obtain ⟨q, hqm, hqe⟩ := List.mem_map.mp hv
          rw [← hqe]
          rw [hmarkheap]
          rcases hF8 q hqm with ⟨ha1, _⟩ | ⟨hb1, _, _⟩
          · exact Or.inl (is_endpoint_atom ha1)
          · exact Or.inr hb1)
      refine ⟨sf, ?_, ?_⟩
      · rw [hrun2]
      · rw [hsfh]
        exact hh4 ▸ hmarkheap
    obtain ⟨sf, hfillrun, hsfheap⟩ := hfill _ hst4heap rfl
    rw [hfillrun]
    dsimp only
    refine ⟨sf, rfl, ?_⟩
    rw [hsfheap, hF4]

theorem lookup_cons_self {β : Type} (v : Nat) (b : β) (m : List (Nat × β)) :
    ((v, b) :: m).lookup v = some b := by
  simp only [List.lookup, beq_self_eq_true]

theorem lookup_append_right {β : Type} {l2 : List (Nat × β)} {k : Nat} :
    ∀ {l1 : List (Nat × β)}, k ∉ l1.map (fun p => p.1) →
      (l1 ++ l2).lookup k = l2.lookup k := by
  intro l1
  induction l1 with
  | nil => intro _; rfl
  | cons p rest ih =>
    intro hk
    obtain ⟨a, b⟩ := p
    simp only [List.map_cons, List.mem_cons, not_or] at hk
    show ((a, b) :: (rest ++ l2)).lookup k = l2.lookup k
    simp only [List.lookup]
    rw [show (k == a) = false from beq_eq_false_iff_ne.mpr hk.1]
    exact ih hk.2

theorem TblInv_mono {h : Heap} {n : Nat} {m : List (Nat × Nat)} {nu nu2 : Nat}
    (hle : nu ≤ nu2) (hinv : TblInv h n m nu) : TblInv h n m nu2 := by
  obtain ⟨h1, h2, h3⟩ := hinv
  refine ⟨h1, h2, fun p hp => ?_⟩
  obtain ⟨a, b, c, d⟩ := h3 p hp
  exact ⟨a, b, c, by omega⟩

theorem TblInv_insert {h : Heap} {n : Nat} {m : List (Nat × Nat)} {nu v : Nat}
    (hnu : n + 2 ≤ nu) (hinv : TblInv h n m nu) (hvlt : v < n)
    (hp : pickOf h v = some .typeErr) (hl : m.lookup v = none) :
    TblInv h n ((v, nu) :: m) (nu + 1) := by
  obtain ⟨hk, hv2, hent⟩ := hinv
  refine ⟨?_, ?_, ?_⟩
  · simp only [List.map_cons]
    exact List.nodup_cons.mpr ⟨not_mem_of_lookup_none hl, hk⟩
  · simp only [List.map_cons]
    refine List.nodup_cons.mpr ⟨?_, hv2⟩
    intro hc
    obtain ⟨p2, hp2m, hp2e⟩ := List.mem_map.mp hc
    have := (hent p2 hp2m).2.2.2
    omega
  · intro q hq
    rcases List.mem_cons.mp hq with heq | hm
    · subst heq
      exact ⟨hvlt, hp, hnu, by omega⟩
    · obtain ⟨h1, h2, h3, h4⟩ := hent q hm
      exact ⟨h1, h2, h3, by omega⟩

theorem memberSim_tbl {h : Heap} {n : Nat} :
    ∀ (rest : List (String × Nat)) (m : List (Nat × Nat)) (nu : Nat),
      n + 2 ≤ nu → TblInv h n m nu → (∀ p ∈ rest, p.2 < n) →
      nu ≤ (memberSim h rest m nu).2.2 ∧
      TblInv h n (memberSim h rest m nu).2.1 (memberSim h rest m nu).2.2 ∧
      ∃ madd, (memberSim h rest m nu).2.1 = madd ++ m ∧ ∀ p ∈ madd, nu ≤ p.2 := by
  intro rest
  induction rest with
  | nil =>
    intro m nu hnu hinv _
    exact ⟨Nat.le_refl nu, hinv, [], rfl, fun p hp => absurd hp (List.not_mem_nil p)⟩
  | cons q rest ih =>
    intro m nu hnu hinv hrest
    obtain ⟨kk, v⟩ := q
    have hvlt : v < n := hrest (kk, v) (List.mem_cons_self _ _)
    have hrest2 : ∀ p ∈ rest, p.2 < n := fun p hp => hrest p (List.mem_cons_of_mem _ hp)
    rw [memberSim_cons]
    cases hp : pickOf h v with
    | none =>
      dsimp only
      exact ih m nu hnu hinv hrest2
    | some e =>
      cases e
      case typeErr =>
        cases hl : m.lookup v with
        | some l =>
          dsimp only
          exact ih m nu hnu hinv hrest2
        | none =>
          dsimp only
          have hinv2 : TblInv h n ((v, nu) :: m) (nu + 1) :=
            TblInv_insert hnu hinv hvlt hp hl
          obtain ⟨hle, hinvF, madd, hmadd, hfr⟩ :=
            ih ((v, nu) :: m) (nu + 1) (by omega) hinv2 hrest2
          refine ⟨by omega, hinvF, madd ++ [(v, nu)], by rw [hmadd, List.append_assoc]; rfl, ?_⟩
          intro p hp2
          rcases List.mem_append.mp hp2 with hA | hB
          · have := hfr p hA
            omega
          · rw [List.mem_singleton.mp hB]
      all_goals
        dsimp only
        obtain ⟨hle, hinvF, madd, hmadd, hfr⟩ :=
          ih m (nu + 1) (by omega) (TblInv_mono (by omega) hinv) hrest2
        exact ⟨by omega, hinvF, madd, hmadd, fun p hp2 => by have := hfr p hp2; omega⟩

theorem memberSim_lookup_stable {h : Heap} {n : Nat} {rest : List (String × Nat)}
    {m : List (Nat × Nat)} {nu a l : Nat}
    (hnu : n + 2 ≤ nu) (hinv : TblInv h n m nu) (hrest : ∀ p ∈ rest, p.2 < n)
    (hl : m.lookup a = some l) :
    (memberSim h rest m nu).2.1.lookup a = some l := by
  obtain ⟨_, hinvF, madd, hmadd, _⟩ := memberSim_tbl rest m nu hnu hinv hrest
  have hkeys : ((madd ++ m).map (fun p => p.1)).Nodup := by
    rw [← hmadd]
    exact hinvF.1
  rw [List.map_append] at hkeys
  have hdisj := (List.nodup_append.mp hkeys).2.2
  have hna : a ∉ madd.map (fun p => p.1) := fun hc => hdisj hc (mem_of_lookup_some hl)
  rw [hmadd, lookup_append_right hna, hl]

theorem memberSim_result {h : Heap} {n : Nat} :
    ∀ (rest : List (String × Nat)) (m : List (Nat × Nat)) (nu : Nat),
      n + 2 ≤ nu → TblInv h n m nu →
      (∀ p ∈ rest, p.2 < n ∧ (pickOf h p.2 = none ∨ pickOf h p.2 = some .typeErr)) →
      (memberSim h rest m nu).1
        = rest.map (fun p => (p.1, simRes h (memberSim h rest m nu).2.1 p.2)) := by
  intro rest
  induction rest with
  | nil => intro m nu _ _ _; rfl
  | cons q rest ih =>
    intro m nu hnu hinv hrest
    obtain ⟨kk, v⟩ := q
    obtain ⟨hvlt, hvpick⟩ := hrest (kk, v) (List.mem_cons_self _ _)
    have hrest2 : ∀ p ∈ rest, p.2 < n ∧
        (pickOf h p.2 = none ∨ pickOf h p.2 = some .typeErr) :=
      fun p hp => hrest p (List.mem_cons_of_mem _ hp)
    have hrestlt : ∀ p ∈ rest, p.2 < n := fun p hp => (hrest2 p hp).1
    rw [memberSim_cons]
    rcases hvpick with hp | hp <;> rw [hp]
    · dsimp only
      rw [List.map_cons]
      have hhead : simRes h (memberSim h rest m nu).2.1 v = v := by
        unfold simRes
        rw [hp]
      rw [hhead, ih m nu hnu hinv hrest2]
    · cases hl : m.lookup v with
      | some l =>
        dsimp only
        rw [List.map_cons]
        have hstab : (memberSim h rest m nu).2.1.lookup v = some l :=
          memberSim_lookup_stable hnu hinv hrestlt hl
        have hhead : simRes h (memberSim h rest m nu).2.1 v = l := by
          unfold simRes
          rw [hp]
          dsimp only
          rw [hstab]
          rfl
        rw [hhead, ih m nu hnu hinv hrest2]
      | none =>
        dsimp only
        rw [List.map_cons]
        have hinv2 : TblInv h n ((v, nu) :: m) (nu + 1) :=
          TblInv_insert hnu hinv hvlt hp hl
        have hstab : (memberSim h rest ((v, nu) :: m) (nu + 1)).2.1.lookup v = some nu :=
          memberSim_lookup_stable (by omega) hinv2 hrestlt (lookup_cons_self v nu m)
        have hhead : simRes h (memberSim h rest ((v, nu) :: m) (nu + 1)).2.1 v = nu := by
          unfold simRes
          rw [hp]
          dsimp only
          rw [hstab]
          rfl
        rw [hhead, ih ((v, nu) :: m) (nu + 1) (by omega) hinv2 hrest2]

theorem memberSim_covered {h : Heap} {n : Nat} :
    ∀ (rest : List (String × Nat)) (m : List (Nat × Nat)) (nu : Nat),
      n + 2 ≤ nu → TblInv h n m nu → (∀ p ∈ rest, p.2 < n) →
      ∀ p ∈ rest, pickOf h p.2 = some .typeErr →
        p.2 ∈ (memberSim h rest m nu).2.1.map (fun q => q.1) := by
  intro rest
  induction rest with
  | nil => intro m nu _ _ _ p hp _; exact absurd hp (List.not_mem_nil p)
  | cons q rest ih =>
    intro m nu hnu hinv hrest p hpmem hpt
    obtain ⟨kk, v⟩ := q
    have hvlt : v < n := hrest (kk, v) (List.mem_cons_self _ _)
    have hrestlt : ∀ r ∈ rest, r.2 < n := fun r hr => hrest r (List.mem_cons_of_mem _ hr)
    rw [memberSim_cons]
    rcases List.mem_cons.mp hpmem with heq | htail
    · subst heq
      have hpt2 : pickOf h v = some .typeErr := hpt
      rw [hpt2]
      cases hl : m.lookup v with
      | some l =>
        dsimp only
        show v ∈ (memberSim h rest m nu).2.1.map (fun q => q.1)
        obtain ⟨_, _, madd, hmadd, _⟩ := memberSim_tbl rest m nu hnu hinv hrestlt
        rw [hmadd, List.map_append]
        exact List.mem_append.mpr (Or.inr (mem_of_lookup_some hl))
      | none =>
        dsimp only
        show v ∈ (memberSim h rest ((v, nu) :: m) (nu + 1)).2.1.map (fun q => q.1)
        have hinv2 : TblInv h n ((v, nu) :: m) (nu + 1) :=
          TblInv_insert hnu hinv hvlt hpt2 hl
        obtain ⟨_, _, madd, hmadd, _⟩ :=
          memberSim_tbl rest ((v, nu) :: m) (nu + 1) (by omega) hinv2 hrestlt
        rw [hmadd, List.map_append]
        refine List.mem_append.mpr (Or.inr ?_)
        rw [List.map_cons]
        exact List.mem_cons_self _ _
    · cases hpv : pickOf h v with
      | none =>
        dsimp only
        exact ih m nu hnu hinv hrestlt p htail hpt
      | some e =>
        cases e
        case typeErr =>
          cases hl : m.lookup v with
          | some l =>
            dsimp only
            exact ih m nu hnu hinv hrestlt p htail hpt
          | none =>
            dsimp only
            exact ih ((v, nu) :: m) (nu + 1) (by omega)
              (TblInv_insert hnu hinv hvlt hpv hl) hrestlt p htail hpt
        all_goals
          dsimp only
          exact ih m (nu + 1) (by omega) (TblInv_mono (by omega) hinv) hrestlt p htail hpt

theorem snd_nodup_inj :
    ∀ {m : List (Nat × Nat)}, (m.map (fun p => p.2)).Nodup →
      ∀ {a b x : Nat}, (a, x) ∈ m → (b, x) ∈ m → a = b := by
  intro m
  induction m with
  | nil => intro _ a b x ha _; exact absurd ha (List.not_mem_nil _)
  | cons q rest ih =>
    intro hnd a b x ha hb
    simp only [List.map_cons, List.nodup_cons] at hnd
    rcases List.mem_cons.mp ha with h1 | h1 <;> rcases List.mem_cons.mp hb with h2 | h2
    · exact congrArg Prod.fst (h1.trans h2.symm)
    · have hx : q.2 ∉ rest.map (fun p => p.2) := hnd.1
      rw [← h1] at hx
      exact absurd (show x ∈ rest.map (fun p => p.2) from List.mem_map_of_mem _ h2) hx
    · have hx : q.2 ∉ rest.map (fun p => p.2) := hnd.1
      rw [← h2] at hx
      exact absurd (show x ∈ rest.map (fun p => p.2) from List.mem_map_of_mem _ h1) hx
    · exact ih hnd.2 h1 h2

theorem simRes_inj {h : Heap} {n : Nat} {mF : List (Nat × Nat)} {nuF a b : Nat}
    (hinv : TblInv h n mF nuF) (ha : a < n) (hb : b < n)
    (hca : pickOf h a = none ∨ a ∈ mF.map (fun p => p.1))
    (hcb : pickOf h b = none ∨ b ∈ mF.map (fun p => p.1))
    (heq : simRes h mF a = simRes h mF b) : a = b := by
  obtain ⟨hk, hv, hent⟩ := hinv
  unfold simRes at heq
  cases hpa : pickOf h a with
  | none =>
    cases hpb : pickOf h b with
    | none =>
      rw [hpa, hpb] at heq
      exact heq
    | some e =>
      rw [hpa, hpb] at heq
      dsimp only at heq
      rcases hcb with hc | hc
      · rw [hpb] at hc
        exact absurd hc (by simp)
      · obtain ⟨lb, hlb⟩ := mem_keys_lookup_isSome hc
        rw [hlb, Option.getD_some] at heq
        have := (hent (b, lb) (lookup_some_mem hlb)).2.2.1
        omega
  | some e =>
    rcases hca with hc | hc
    · rw [hpa] at hc
      exact absurd hc (by simp)
    · obtain ⟨la, hla⟩ := mem_keys_lookup_isSome hc
      cases hpb : pickOf h b with
      | none =>
        rw [hpa, hpb] at heq
        dsimp only at heq
        rw [hla, Option.getD_some] at heq
        have := (hent (a, la) (lookup_some_mem hla)).2.2.1
        omega
      | some e2 =>
        rcases hcb with hc2 | hc2
        · rw [hpb] at hc2
          exact absurd hc2 (by simp)
        · obtain ⟨lb, hlb⟩ := mem_keys_lookup_isSome hc2
          rw [hpa, hpb] at heq
          dsimp only at heq
          rw [hla, hlb, Option.getD_some, Option.getD_some] at heq
          have hmb : (b, la) ∈ mF := by
            rw [heq]
            exact lookup_some_mem hlb
          exact snd_nodup_inj hv (lookup_some_mem hla) hmb

theorem memberSim_id {h : Heap} :
    ∀ (rest : List (String × Nat)) (m : List (Nat × Nat)) (nu : Nat),
      (∀ p ∈ rest, pickOf h p.2 = none) →
      memberSim h rest m nu = (rest, m, nu) := by
  intro rest
  induction rest with
  | nil => intro m nu _; rfl
  | cons q rest ih =>
    intro m nu hall
    obtain ⟨kk, v⟩ := q
    have hv : pickOf h v = none := hall (kk, v) (List.mem_cons_self _ _)
    rw [memberSim_cons, hv]
    dsimp only
    rw [ih m nu (fun p hp => hall p (List.mem_cons_of_mem _ hp))]

theorem memberSim_bad_val {h : Heap} {n : Nat} :
    ∀ (rest : List (String × Nat)) (m : List (Nat × Nat)) (nu : Nat),
      n + 2 ≤ nu → (∀ q ∈ m, n + 2 ≤ q.2) →
      ∀ p ∈ rest, pickOf h p.2 ≠ none →
        ∃ r ∈ (memberSim h rest m nu).1.map (fun q => q.2), n + 2 ≤ r := by
  intro rest
  induction rest with
  | nil => intro m nu _ _ p hp _; exact absurd hp (List.not_mem_nil p)
  | cons q rest ih =>
    intro m nu hnu hm p hpmem hpbad
    obtain ⟨kk, v⟩ := q
    rw [memberSim_cons]
    rcases List.mem_cons.mp hpmem with heq | htail
    · have hvbad : pickOf h v ≠ none := by
        rw [heq] at hpbad
        exact hpbad
      cases hpv : pickOf h v with
      | none => exact absurd hpv hvbad
      | some e =>
        cases e
        case typeErr =>
          cases hl : m.lookup v with
          | some l =>
            dsimp only
            refine ⟨l, ?_, hm (v, l) (lookup_some_mem hl)⟩
            rw [List.map_cons]
            exact List.mem_cons_self _ _
          | none =>
            dsimp only
            refine ⟨nu, ?_, hnu⟩
            rw [List.map_cons]
            exact List.mem_cons_self _ _
        all_goals
          dsimp only
          refine ⟨nu, ?_, hnu⟩
          rw [List.map_cons]
          exact List.mem_cons_self _ _
    · cases hpv : pickOf h v with
      | none =>
        dsimp only
        obtain ⟨r, hr1, hr2⟩ := ih m nu hnu hm p htail hpbad
        refine ⟨r, ?_, hr2⟩
        rw [List.map_cons]
        exact List.mem_cons_of_mem _ hr1
      | some e =>
        cases e
        case typeErr =>
          cases hl : m.lookup v with
          | some l =>
            dsimp only
            obtain ⟨r, hr1, hr2⟩ := ih m nu hnu hm p htail hpbad
            refine ⟨r, ?_, hr2⟩
            rw [List.map_cons]
            exact List.mem_cons_of_mem _ hr1
          | none =>
            dsimp only
            obtain ⟨r, hr1, hr2⟩ := ih ((v, nu) :: m) (nu + 1) (by omega)
              (fun q2 hq2 => (List.mem_cons.mp hq2).elim
                (fun he => by rw [he]; exact hnu)
                (fun ht => hm q2 ht)) p htail hpbad
            refine ⟨r, ?_, hr2⟩
            rw [List.map_cons]
            exact List.mem_cons_of_mem _ hr1
        all_goals
          dsimp only
          obtain ⟨r, hr1, hr2⟩ := ih m (nu + 1) (by omega) hm p htail hpbad
          refine ⟨r, ?_, hr2⟩
          rw [List.map_cons]
          exact List.mem_cons_of_mem _ hr1

theorem getD_snd_map_pair {h : Heap} {mF : List (Nat × Nat)} :
    ∀ (attrs : List (String × Nat)) (i : Nat), i < attrs.length →
      ((attrs.map (fun p => (p.1, simRes h mF p.2))).map (fun p => p.2)).getD i 0
        = simRes h mF ((attrs.map (fun p => p.2)).getD i 0) := by
  intro attrs
  induction attrs with
  | nil => intro i hi; exact absurd hi (by simp)
  | cons q rest ih =>
    intro i hi
    cases i with
    | zero => rfl
    | succ k =>
      have hk : k < rest.length := by
        simp only [List.length_cons] at hi
        omega
      exact ih k hk

theorem getD_mem_of_lt {l : List Nat} :
    ∀ {i : Nat}, i < l.length → ∀ (d : Nat), l.getD i d ∈ l := by
  induction l with
  | nil => intro i hi _; exact absurd hi (by simp)
  | cons a rest ih =>
    intro i hi d
    cases i with
    | zero => exact List.mem_cons_self _ _
    | succ k =>
      have hk : k < rest.length := by
        simp only [List.length_cons] at hi
        omega
      exact List.mem_cons_of_mem _ (ih hk d)

/-- C2 (amended).  Restricted to members whose direct encode either succeeds
or fails with `TypeError`, the Seen-Table sharing invariant does hold on a
family graph: the repair walk keeps the namespace copy, preserves the
attribute names, and two attribute positions hold the same value identity in
the repaired copy exactly when they held the same value identity in the
original (one shared `LostObject` per original unpicklable member).  The
unrestricted claim is refuted by `C2_shared_member_distinct_placeholders`:
a member failing with `PicklingError` takes the early `handle_member` exit
that allocates a fresh `LostObject` per occurrence, bypassing the table. -/
theorem C2_typeErr_members_share_placeholders_iff {h : Heap} {n : Nat}
    {attrs : List (String × Nat)}
    (hroot : h 0 = .ns attrs none true false false)
    (hn : 0 < n)
    (hkeys : (attrs.map (fun p => p.1)).Nodup)
    (hvals : ∀ p ∈ attrs, p.2 ≠ 0 ∧ p.2 < n ∧ isAtomB (h p.2) = true ∧
      (pickOf h p.2 = none ∨ pickOf h p.2 = some .typeErr))
    (hdesc : ∃ p ∈ attrs, pickOf h p.2 ≠ none) :
    ∃ stf attrs2, serializable_copy h n 0 = (.ok (n + 1), stf) ∧
      stf.heap (n + 1) = .ns attrs2 none true false false ∧
      attrs2.map (fun p => p.1) = attrs.map (fun p => p.1) ∧
      ∀ i j, i < attrs.length → j < attrs.length →
        ((attrs2.map (fun p => p.2)).getD i 0 = (attrs2.map (fun p => p.2)).getD j 0 ↔
          (attrs.map (fun p => p.2)).getD i 0 = (attrs.map (fun p => p.2)).getD j 0) := by
  have htbl0 : TblInv h n ([] : List (Nat × Nat)) (n + 2) :=
    ⟨List.nodup_nil, List.nodup_nil, fun p hp => absurd hp (List.not_mem_nil p)⟩
  have hlt : ∀ p ∈ attrs, p.2 < n := fun p hp => (hvals p hp).2.1
  have hvals3 : ∀ p ∈ attrs, p.2 ≠ 0 ∧ p.2 < n ∧ isAtomB (h p.2) = true ∧
      (pickOf h p.2 = none ∨ pickOf h p.2 = some .typeErr ∨
        pickOf h p.2 = some .picklingErr) := by
    intro p hp
    obtain ⟨a, b, c, d⟩ := hvals p hp
    exact ⟨a, b, c, d.elim Or.inl (fun x => Or.inr (Or.inl x))⟩
  obtain ⟨p0, hp0m, hp0bad⟩ := hdesc
  obtain ⟨r, hrmem, hrge⟩ := memberSim_bad_val attrs [] (n + 2) (Nat.le_refl _)
    (fun q hq => absurd hq (List.not_mem_nil q)) p0 hp0m hp0bad
  have hSetF : listSetEq (attrs.map (fun p => p.2))
      ((memberSim h attrs [] (n + 2)).1.map (fun p => p.2)) = false :=
    listSetEq_false_of hrmem (fun hc => by
      obtain ⟨q, hqm, hqe⟩ := List.mem_map.mp hc
      have hqe2 : q.2 = r := hqe
      have := hlt q hqm
      omega)
  rcases family_descent hroot hn hkeys hvals3 (Or.inr ⟨p0, hp0m, hp0bad⟩) with
    ⟨hT, _⟩ | ⟨_, stf, hsc, hheap⟩
  · rw [hT] at hSetF
    exact absurd hSetF (fun hc => Bool.noConfusion hc)
  · have hres := memberSim_result attrs [] (n + 2) (Nat.le_refl _) htbl0
      (fun p hp => ⟨(hvals p hp).2.1, (hvals p hp).2.2.2⟩)
    obtain ⟨_, hinvF, _⟩ := memberSim_tbl attrs [] (n + 2) (Nat.le_refl _) htbl0 hlt
    refine ⟨stf, (memberSim h attrs [] (n + 2)).1, hsc, hheap, ?_, ?_⟩
    · rw [hres, List.map_map]
      rfl
    · intro i j hi hj
      constructor
      · intro hEq
        rw [hres, getD_snd_map_pair attrs i hi, getD_snd_map_pair attrs j hj] at hEq
        have hvi_mem : (attrs.map (fun p => p.2)).getD i 0 ∈ attrs.map (fun p => p.2) :=
          getD_mem_of_lt (by rw [List.length_map]; exact hi) 0
        have hvj_mem : (attrs.map (fun p => p.2)).getD j 0 ∈ attrs.map (fun p => p.2) :=
          getD_mem_of_lt (by rw [List.length_map]; exact hj) 0
        obtain ⟨qi, hqim, hqie⟩ := List.mem_map.mp hvi_mem
        obtain ⟨qj, hqjm, hqje⟩ := List.mem_map.mp hvj_mem
        have hqie2 : qi.2 = (attrs.map (fun p => p.2)).getD i 0 := hqie
        have hqje2 : qj.2 = (attrs.map (fun p => p.2)).getD j 0 := hqje
        refine simRes_inj hinvF ?_ ?_ ?_ ?_ hEq
        · rw [← hqie2]
          exact hlt qi hqim
        · rw [← hqje2]
          exact hlt qj hqjm
        · rcases (hvals qi hqim).2.2.2 with h0 | h0
          · left
            rw [← hqie2]
            exact h0
          · right
            rw [← hqie2]
            exact memberSim_covered attrs [] (n + 2) (Nat.le_refl _) htbl0 hlt qi hqim h0
        · rcases (hvals qj hqjm).2.2.2 with h0 | h0
          · left
            rw [← hqje2]
            exact h0
          · right
            rw [← hqje2]
            exact memberSim_covered attrs [] (n + 2) (Nat.le_refl _) htbl0 hlt qj hqjm h0
      · intro hEq
        rw [hres, getD_snd_map_pair attrs i hi, getD_snd_map_pair attrs j hj]
        exact congrArg (simRes h (memberSim h attrs [] (n + 2)).2.1) hEq

theorem C2_typeErr_members_share_placeholders_iff_witness :
    ∃ stf attrs2, serializable_copy heapC2 3 0 = (.ok 4, stf) ∧
      stf.heap 4 = .ns attrs2 none true false false ∧
      attrs2.map (fun p => p.1)
        = ([("a", 1), ("b", 1), ("c", 2)] : List (String × Nat)).map (fun p => p.1) ∧
      ∀ i j, i < ([("a", 1), ("b", 1), ("c", 2)] : List (String × Nat)).length →
        j < ([("a", 1), ("b", 1), ("c", 2)] : List (String × Nat)).length →
        ((attrs2.map (fun p => p.2)).getD i 0 = (attrs2.map (fun p => p.2)).getD j 0 ↔
          (([("a", 1), ("b", 1), ("c", 2)] : List (String × Nat)).map
            (fun p => p.2)).getD i 0
            = (([("a", 1), ("b", 1), ("c", 2)] : List (String × Nat)).map
              (fun p => p.2)).getD j 0) :=
  C2_typeErr_members_share_placeholders_iff rfl (by decide) (by decide) (by decide)
    ⟨("a", 1), by decide, by decide⟩

/-- C6 (amended).  For a namespace node whose own direct encode fails, the
"nothing was replaced" check of `handle_namespace_item` behaves as the spec
says: the walker returns a `LostObject` placeholder for the node exactly
when every member survives untouched (all members directly pickleable), and
keeps the partially repaired copy as soon as at least one member was
replaced.  The unrestricted claim is refuted by `C6_iterable_no_placeholder`:
`handle_iterable` performs no such check, so an unsalvageable list is
returned unchanged rather than replaced by a placeholder. -/
theorem C6_namespace_placeholder_iff_no_member_replaced {h : Heap} {n : Nat}
    {attrs : List (String × Nat)}
    (hroot : h 0 = .ns attrs (some .typeErr) true false false)
    (hn : 0 < n)
    (hkeys : (attrs.map (fun p => p.1)).Nodup)
    (hvals : ∀ p ∈ attrs, p.2 ≠ 0 ∧ p.2 < n ∧ isAtomB (h p.2) = true ∧
      (pickOf h p.2 = none ∨ pickOf h p.2 = some .typeErr ∨
        pickOf h p.2 = some .picklingErr)) :
    ∃ v stf, serializable_copy h n 0 = (.ok v, stf) ∧
      (isLostB (stf.heap v) = true ↔ ∀ p ∈ attrs, pickOf h p.2 = none) := by
  by_cases hall : ∀ p ∈ attrs, pickOf h p.2 = none
  · rcases family_descent hroot hn hkeys hvals (Or.inl ⟨.typeErr, rfl⟩) with
      ⟨_, stf, hsc, hlost⟩ | ⟨hF, _⟩
    · exact ⟨_, stf, hsc, ⟨fun _ => hall, fun _ => hlost⟩⟩
    · rw [memberSim_id attrs [] (n + 2) hall] at hF
      have hFF : listSetEq (attrs.map (fun p => p.2)) (attrs.map (fun p => p.2)) = false := hF
      rw [listSetEq_self] at hFF
      exact absurd hFF (fun hc => Bool.noConfusion hc)
  · push_neg at hall
    obtain ⟨p0, hp0m, hp0bad⟩ := hall
    obtain ⟨r, hrmem, hrge⟩ := memberSim_bad_val attrs [] (n + 2) (Nat.le_refl _)
      (fun q hq => absurd hq (List.not_mem_nil q)) p0 hp0m hp0bad
    have hSetF : listSetEq (attrs.map (fun p => p.2))
        ((memberSim h attrs [] (n + 2)).1.map (fun p => p.2)) = false :=
      listSetEq_false_of hrmem (fun hc => by
        obtain ⟨q, hqm, hqe⟩ := List.mem_map.mp hc
        have hqe2 : q.2 = r := hqe
        have := (hvals q hqm).2.1
        omega)
    rcases family_descent hroot hn hkeys hvals (Or.inl ⟨.typeErr, rfl⟩) with
      ⟨hT, _⟩ | ⟨_, stf, hsc, hheap⟩
    · rw [hT] at hSetF
      exact absurd hSetF (fun hc => Bool.noConfusion hc)
    · refine ⟨n + 1, stf, hsc, ?_⟩
      rw [hheap]
      constructor
      · intro hc
        exact absurd hc (fun hc2 => Bool.noConfusion hc2)
      · intro hc
        exact absurd (hc p0 hp0m) hp0bad

theorem C6_namespace_placeholder_iff_no_member_replaced_witness :
    ∃ v stf, serializable_copy heapC6 2 0 = (.ok v, stf) ∧
      (isLostB (stf.heap v) = true ↔
        ∀ p ∈ ([("x", 1)] : List (String × Nat)), pickOf heapC6 p.2 = none) :=
  C6_namespace_placeholder_iff_no_member_replaced rfl (by decide) (by decide) (by decide)

/-- C4.  The repair walk never mutates the caller's original graph: for
any well-formed heap (original objects refer only to original identities
and are not `FutureObject`s), every original identity maps to exactly the
same node after `serializable_copy` as before, whether the walk succeeds
or raises.  Every mutation the walker performs — attribute rebinding,
element replacement, dict insertion, `FutureObject` fill-in — lands on
freshly allocated copies. -/
theorem C4_original_graph_untouched (h : Heap) (n item : Nat) (hwf : WfOrig h n) :
    ∀ i, i < n → (serializable_copy h n item).2.heap i = h i :=
  fun i hi => (pres_serializable_copy hwf item).1 i hi

/-- C4 witness: the frame theorem evaluated on a concrete two-object graph
(an object with one unpicklable attribute). -/
theorem C4_original_graph_untouched_witness :
    (serializable_copy witnessHeap 2 0).2.heap 1 = witnessHeap 1 :=
  C4_original_graph_untouched witnessHeap 2 0 (by
    intro i hi
    have h2 : i = 0 ∨ i = 1 := by omega
    rcases h2 with h | h <;> subst h <;> exact ⟨by decide, by decide⟩) 1 (by decide)

/-- C1.  The spec claims `serialize` never raises because of unpicklable
content: the repair path is supposed to absorb every content-level
failure.  The code catches only `TypeError` around the direct encode, so
an object whose `dill.dumps` raises `pickle.PicklingError` crashes
`to_bytes` (and hence `serialize`) without the repair path ever running. -/
theorem C1_picklingError_escapes_to_bytes :
    Serializer.to_bytes sockHeap 1 0 = .error .picklingErr ∧
    (Serializer.serialize .empty sockHeap 1 0).2 = .error .picklingErr :=
  ⟨rfl, rfl⟩

/-- C5 counterexample.  The spec states the endpoint classifier is the
disjunction of the no-attribute-storage condition and the
not-a-container condition.  A plain `list` satisfies the
no-attribute-storage condition (no instance `__dict__`), so the spec's
disjunction classifies it as an endpoint, but `is_endpoint` in the source
returns `False` for it (the walker must descend into lists). -/
theorem C5_disjunction_cex :
    ¬ (is_endpoint (Node.pylist [] none)
        = (noAttrStorageB (Node.pylist [] none) || notContainerB (Node.pylist [] none))) := by
  decide

/-- C5 amended.  The classifier is the conjunction, not the disjunction,
of the two conditions: an object is an endpoint iff it has no usable
attribute storage AND is not a recognized container. -/
theorem C5_endpoint_is_conjunction (n : Node) :
    is_endpoint n = (noAttrStorageB n && notContainerB n) := rfl

/-- C7 counterexample.  The claim says attribute access, indexing, or
iteration on a Placeholder never raises.  Neither `Lost` nor `LostObject`
defines `__getitem__`, and subscription looks the special method up on the
type (bypassing `__getattr__`), so indexing a Placeholder raises
`TypeError`. -/
theorem C7_indexing_raises :
    lostGetItem (.lostObj "socket") 0 = .error .typeErr := rfl

/-- C7 amended.  Attribute access and iteration on a Placeholder never
raise: any non-dunder name yields the absorbing `Lost()` singleton, its
length is zero and its iteration is immediately exhausted, while a dunder
name raises `AttributeError` so language-level protocol introspection gets
correct answers; indexing, however, raises `TypeError` since no
`__getitem__` is defined. -/
theorem C7_placeholder_behaviour (p : Placeholder) (name : String) :
    (isDunder name = false → lostGetattr p name = .ok .lostSingleton) ∧
    (isDunder name = true → lostGetattr p name = .error .attributeErr) ∧
    lostLen p = 0 ∧ lostIterate p = [] ∧
    lostGetItem p 0 = .error .typeErr := by
  refine ⟨fun hd => ?_, fun hd => ?_, rfl, rfl, rfl⟩
  · cases p <;> simp [lostGetattr, hd]
  · cases p <;> simp [lostGetattr, hd]

/-- C7 witness: the amended behaviour evaluated at a concrete placeholder
and a concrete non-dunder name. -/
theorem C7_placeholder_behaviour_witness :
    lostGetattr (.lostObj "socket") "child" = .ok .lostSingleton ∧
    lostGetattr (.lostObj "socket") "__iter__" = .error .attributeErr :=
  ⟨(C7_placeholder_behaviour (.lostObj "socket") "child").1 (by decide),
   (C7_placeholder_behaviour (.lostObj "socket") "__iter__").2.1 (by decide)⟩

/-- C8 counterexample.  The claim says an empty or missing backing file is
never surfaced as an error.  `deserialize` catches only `EOFError`; a
missing backing file makes `read_bytes` raise `FileNotFoundError`, which
propagates to the caller. -/
theorem C8_absent_store_raises :
    Serializer.deserialize .absent = .error .fileNotFound := rfl

/-- C8 amended.  An empty backing store is never surfaced as an error:
decoding the empty byte string raises `EOFError`, which `deserialize`
converts to `None`; a non-empty store round-trips; but an absent backing
file raises. -/
theorem C8_empty_store_returns_none :
    Serializer.deserialize .empty = .ok none ∧
    ∀ b : Bytes, Serializer.deserialize (.data b) = .ok (some b) :=
  ⟨rfl, fun _ => rfl⟩

/-- C9.  The spec says mapping keys are visited and replaced exactly like
values, with member order preserved.  `handle_iterable` instead runs
`enumerate` over the dict — which yields its keys, not index/value pairs —
and assigns `obj[index] = handle_member(key)`, inserting fresh integer
keys into the dict while iterating it; the live dict iterator then raises
`RuntimeError` (dictionary changed size during iteration), so repairing
any mapping with a non-integer key raises instead of repairing, and values
are never visited at all. -/
theorem C9_dict_repair_raises :
    repairResult mapHeap 3 0 = .error .runtimeErr ∧
    Serializer.to_bytes mapHeap 3 0 = .error .runtimeErr :=
  ⟨rfl, rfl⟩

/-- C10.  `serialize` is `write_bytes(to_bytes(obj))`: the byte string,
including any repair pass, is fully computed before the backing store is
touched, so an encode failure of any kind leaves the store's previous
contents unchanged. -/
theorem C10_store_untouched_on_encode_failure (s : Store) (h : Heap) (n obj : Nat)
    (e : PErr) (henc : Serializer.to_bytes h n obj = .error e) :
    Serializer.serialize s h n obj = (s, .error e) := by
  unfold Serializer.serialize
  rw [henc]

/-- C2 counterexample.  Two attribute positions referencing the same
original unpicklable sub-object do not always end up referencing the same
replacement: `handle_member` answers `pickle.PicklingError` with a fresh
`LostObject` without consulting or recording the Seen Table, so the two
positions get two distinct placeholders (identities 5 and 6). -/
theorem C2_shared_member_distinct_placeholders :
    getAttr sharedPicklingHeap 0 "a" = getAttr sharedPicklingHeap 0 "b" ∧
    repairResult sharedPicklingHeap 3 0 = .ok 4 ∧
    getAttr (repairHeap sharedPicklingHeap 3 0) 4 "a" = some 5 ∧
    getAttr (repairHeap sharedPicklingHeap 3 0) 4 "b" = some 6 ∧
    getAttr (repairHeap sharedPicklingHeap 3 0) 4 "a"
      ≠ getAttr (repairHeap sharedPicklingHeap 3 0) 4 "b" := by
  refine ⟨rfl, rfl, rfl, rfl, ?_⟩
  intro hcon
  rw [show getAttr (repairHeap sharedPicklingHeap 3 0) 4 "a" = some 5 from rfl,
      show getAttr (repairHeap sharedPicklingHeap 3 0) 4 "b" = some 6 from rfl] at hcon
  exact absurd hcon (by decide)

/-- C6 counterexample.  A non-endpoint node whose direct encoding fails
and in which the walker replaces nothing is only turned into a Placeholder
on the namespace branch: `handle_iterable` has no such check, so this list
comes back from repair as the unchanged (still unserializable) copy at
identity 3 rather than as a Placeholder — and the subsequent re-encode in
`to_bytes` then fails. -/
theorem C6_iterable_no_placeholder :
    dumps badListHeap 3 [] 0 = .error .typeErr ∧
    dumps badListHeap 3 [] 1 = .ok [1] ∧
    repairResult badListHeap 2 0 = .ok 3 ∧
    repairHeap badListHeap 2 0 3 = .pylist [1] (some .typeErr) ∧
    isLostB (repairHeap badListHeap 2 0 3) = false ∧
    Serializer.to_bytes badListHeap 2 0 = .error .typeErr :=
  ⟨rfl, rfl, rfl, rfl, rfl, rfl⟩

set_option maxHeartbeats 4000000 in
/-- C3.  On the two-object reference cycle `a.child = b; b.parent = a`
(identities 1 and 2 of `cycleHeap`, with every node serializable after
repair but `a` failing its direct encode), the repair walk terminates with
a result — symbolically, for every repr string and every content of the
unreachable part of the heap — and the repaired graph still exhibits the
cycle: the copy of `a` (identity 4) has a `child` attribute whose `parent`
attribute is that same copy, the back-edge having been resolved through the
Seen Table / `FutureObject` fill-in mechanism. -/
theorem C3_cycle_terminates_and_is_preserved (r : String) (junk : Nat → Node) :
    repairResult (cycleHeap r junk) 3 0 = .ok 4 ∧
    getAttr (repairHeap (cycleHeap r junk) 3 0) 4 "child" = some 5 ∧
    getAttr (repairHeap (cycleHeap r junk) 3 0) 5 "parent" = some 4 :=
  ⟨rfl, rfl, rfl⟩

/-- C10 witness: a store with previous contents survives a failing
`serialize` call unchanged. -/
theorem C10_store_untouched_witness :
    Serializer.serialize (.data (0, sockHeap)) sockHeap 1 0
      = (.data (0, sockHeap), .error .picklingErr) :=
  C10_store_untouched_on_encode_failure (.data (0, sockHeap)) sockHeap 1 0 .picklingErr rfl

end Miscutils

